import Mathlib

/-!
# WASI ABI adapters of wavm-aot-generator

Shallow embedding of `abi/ckb_vm_wasi_abi.h`, `abi/posix_wasi_abi.h` and
`ckb_vm_wasi_wrapper.c`.

* Machine integers are mathematical integers; every conversion to `int32_t`
  or `uint32_t` is written out (`i32`, `u32`). The index expressions
  `address + i * 8` and `address + i * 8 + 4` are not wrapped to 32 bits.
* The memory reached through the base pointer (`memoryOffset0`, `memory0`) is a
  total map from the signed byte displacement relative to that pointer to a
  byte: the adapters do no bounds checking, and the hosts are LP64 (the header
  returns a `uint64_t` through `long`), so an `int32_t` index is sign-extended
  and a `uint32_t` index is zero-extended before it is added to the pointer.
* Multi-byte accesses are little-endian (riscv64, x86-64).
* The host primitives `ckb_debug`, `ckb_exit`, `exit` and `write` live outside
  the repository; they are modelled as events appended to a trace.
-/

set_option linter.unusedVariables false

namespace WavmAbi

/-! ## Machine integers -/

/-- Conversion of an integer to `int32_t` (two's complement wrap). -/
def i32 (x : Int) : Int := (x + 2147483648) % 4294967296 - 2147483648

/-- Conversion of an integer to `uint32_t`. -/
def u32 (x : Int) : Int := x % 4294967296

/-! ## Memory -/

/-- One `uint8_t`. -/
abbrev Byte := Fin 256

/-- Bytes reachable from the base pointer, indexed by signed displacement. -/
abbrev Memory := Int → Byte

/-- The byte number `k` (0 is least significant) of a stored word. -/
def byteOf (v : Nat) (k : Nat) : Byte := ⟨(v / 256 ^ k) % 256, Nat.mod_lt _ (by decide)⟩

/-- Read through a `uint32_t*` at displacement `a`. -/
def load32 (m : Memory) (a : Int) : Nat :=
  (m a).val + 256 * (m (a + 1)).val + 65536 * (m (a + 2)).val + 16777216 * (m (a + 3)).val

/-- Write through a `uint32_t*` at displacement `a`. -/
def store32 (m : Memory) (a : Int) (v : Nat) : Memory := fun x =>
  if x = a then byteOf v 0
  else if x = a + 1 then byteOf v 1
  else if x = a + 2 then byteOf v 2
  else if x = a + 3 then byteOf v 3
  else m x

/-- The `n` bytes starting at displacement `src`. -/
def readBytes (m : Memory) : Int → Nat → List Byte
  | _, 0 => []
  | src, n + 1 => m src :: readBytes m (src + 1) n

/-! ## Host state, events and outcomes -/

/-- What the host primitives were asked to do, in call order. -/
inductive Event where
  | debug (text : List Byte)
  | write (fd : Int) (buf : Int) (count : Nat)
  | exit (code : Int)
  deriving DecidableEq, Repr

/-- Everything the adapters can read or change. `mem` is the memory behind the
base pointer, `temp_buffer` the static 65-byte scratch array of the chunking
`fd_write` (indices 0..64; a separate object that no displacement from the base
pointer reaches, "not guest-visible" in the words of the spec), `trace` the host
primitive calls made so far. -/
structure Host where
  mem : Memory
  temp_buffer : Nat → Byte
  trace : List Event

/-- How a call into the adapter ends. -/
inductive Outcome (α : Type) where
  | returned (value : α) (s : Host)
  | exited (code : Int) (s : Host)
  | overrun (s : Host)
  | outOfFuel (s : Host)

/-- The host state at the end of the call. -/
def Outcome.host {α : Type} : Outcome α → Host
  | .returned _ s => s
  | .exited _ s => s
  | .overrun s => s
  | .outOfFuel s => s

/-- The value handed back to the caller, when control returns to it. -/
def Outcome.value? {α : Type} : Outcome α → Option α
  | .returned v _ => some v
  | _ => none

/-- The status the run terminated with, when a termination primitive ended it. -/
def Outcome.exitCode? {α : Type} : Outcome α → Option Int
  | .exited c _ => some c
  | _ => none

/-- Whether the call left the bounds of the scratch buffer. -/
def Outcome.isOverrun {α : Type} : Outcome α → Bool
  | .overrun _ => true
  | _ => false

/-- Whether the model ran out of loop fuel (never the case, see
`chunkLoop_fuel_suffices`). -/
def Outcome.isOutOfFuel {α : Type} : Outcome α → Bool
  | .outOfFuel _ => true
  | _ => false

/-- Sequencing: the rest of the function body runs only when the first part
returned. -/
def Outcome.bind {α β : Type} (o : Outcome α) (k : α → Host → Outcome β) : Outcome β :=
  match o with
  | .returned v s => k v s
  | .exited c s => .exited c s
  | .overrun s => .overrun s
  | .outOfFuel s => .outOfFuel s

/-- The strings handed to `ckb_debug`, in order. -/
def debugLog : List Event → List (List Byte)
  | [] => []
  | .debug t :: es => t :: debugLog es
  | _ :: es => debugLog es

/-- The bytes of a C string literal, terminator excluded. -/
def literal (s : String) : List Byte :=
  s.toList.map fun c => ⟨c.toNat % 256, Nat.mod_lt _ (by decide)⟩

/-! ## Host primitives -/

/-- Modelled from the spec: the debug-log channel of `ckb_syscalls.h`, which
accepts a null-terminated byte string and returns nothing of interest. -/
def ckb_debug (text : List Byte) (s : Host) : Outcome Unit :=
  .returned () { s with trace := s.trace ++ [Event.debug text] }

/-- Modelled from the spec: the process-termination primitive of
`ckb_syscalls.h`, taking a signed status code; it does not return. -/
def ckb_exit (code : Int) (s : Host) : Outcome Unit :=
  .exited code { s with trace := s.trace ++ [Event.exit code] }

/-- Modelled from the spec: the process-termination primitive of the C library,
taking a signed status code; it does not return. -/
def libc_exit (code : Int) (s : Host) : Outcome Unit :=
  .exited code { s with trace := s.trace ++ [Event.exit code] }

/-- Modelled from the spec: the blocking write primitive of the C library. The
call is recorded; the value it returns is chosen by the environment (`rets`,
indexed by the number of host calls made before it). Guest memory is only
read. -/
def libc_write (rets : Nat → Int) (fd : Int) (buf : Int) (count : Nat) (s : Host) :
    Outcome Int :=
  .returned (rets s.trace.length) { s with trace := s.trace ++ [Event.write fd buf count] }

/-! ## The scratch buffer -/

/-- Effect of `memcpy(temp_buffer, &mem[src], n)`. -/
def memcpyTemp (tb : Nat → Byte) (m : Memory) (src : Int) (n : Nat) : Nat → Byte :=
  fun k => if k < n then m (src + k) else tb k

/-- Effect of `temp_buffer[i] = v`. -/
def setTemp (tb : Nat → Byte) (i : Nat) (v : Byte) : Nat → Byte :=
  fun k => if k = i then v else tb k

/-- The string a reader of a `const char*` sees from index `k` on: the bytes
before the first NUL. The scan is bounded by the size of the array. -/
def cstrFrom (tb : Nat → Byte) : Nat → Nat → List Byte
  | 0, _ => []
  | fuel + 1, k => if tb k = 0 then [] else tb k :: cstrFrom tb fuel (k + 1)

/-- The C string held in the 65-byte scratch buffer. -/
def cstr (tb : Nat → Byte) : List Byte := cstrFrom tb 65 0

/-! ## Descriptor decoding -/

/-- The index expression `address + i * 8` of `&mem[address + i * 8]`. Both
operands are `int32_t`, so the index is signed. Where the sum leaves the
`int32_t` range the C expression overflows; the model takes the mathematical
value, without a wrap to 32 bits, as address arithmetic at pointer width
gives. -/
def descIndex (address i : Int) : Int := address + i * 8

/-- The index expression `address + i * 8 + 4` of `&mem[address + i * 8 + 4]`,
likewise signed and without a wrap to 32 bits. -/
def descLenIndex (address i : Int) : Int := address + i * 8 + 4

/-- The `buffer_address` field of descriptor `i`. -/
def bufferAddress (m : Memory) (address i : Int) : Nat := load32 m (descIndex address i)

/-- The `buffer_length` field of descriptor `i`. -/
def bufferLength (m : Memory) (address i : Int) : Nat := load32 m (descLenIndex address i)

/-! ## The chunking loop (`ckb_vm_wasi_abi.h` 48-57, `ckb_vm_wasi_wrapper.c` 15-24) -/

/-- The loop `while (written < buffer_length) ...` over the buffer at
displacement `buf`; the two files have the same loop body. The comparison is
unsigned (`written` is converted to `uint32_t`), `left_bytes` is the unsigned
difference converted to `int32_t`. `memcpy` receives `b` converted to `size_t`
and `temp_buffer[b]` is a store into a 65-byte array: both stay inside the
array exactly when `0 ≤ b ≤ 64`, otherwise the outcome is `overrun`. The value
returned is the final `written`. -/
def chunkLoop (buf : Int) (buffer_length : Nat) : Nat → Int → Host → Outcome Int
  | 0, written, s =>
    if u32 written < buffer_length then .outOfFuel s else .returned written s
  | fuel + 1, written, s =>
    if u32 written < buffer_length then
      let left_bytes : Int := i32 (u32 (buffer_length - u32 written))
      let b : Int := if left_bytes > 64 then 64 else left_bytes
      if 0 ≤ b ∧ b ≤ 64 then
        let s1 : Host := { s with temp_buffer := memcpyTemp s.temp_buffer s.mem (buf + written) b.toNat }
        let s2 : Host := { s1 with temp_buffer := setTemp s1.temp_buffer b.toNat 0 }
        (ckb_debug (cstr s2.temp_buffer) s2).bind fun _ s3 =>
          chunkLoop buf buffer_length fuel (i32 (written + b)) s3
      else .overrun s
    else .returned written s

/-- The chunking loop entered with `written = 0`. Every iteration that does not
overrun advances `written` by at least 1, so `buffer_length` iterations are
enough. -/
def writeChunks (buf : Int) (buffer_length : Nat) (s : Host) : Outcome Int :=
  chunkLoop buf buffer_length buffer_length 0 s

/-! ## `abi/ckb_vm_wasi_abi.h` -/

/-- The struct `wavm_ret_int32_t`. -/
structure wavm_ret_int32_t where
  dummy : Nat
  value : Int
  deriving DecidableEq, Repr

namespace CkbVm

/-- Source: `callIndirectFail`. -/
def callIndirectFail (s : Host) : Outcome Unit :=
  (ckb_debug (literal "Call indirect fail!") s).bind fun _ s1 =>
    ckb_exit (-2) s1

/-- Source: `unreachableTrap`. -/
def unreachableTrap (s : Host) : Outcome Unit :=
  (ckb_debug (literal "This should not be reached!") s).bind fun _ s1 =>
    ckb_exit (-1) s1

/-- Source: `wavm_intrinsic_memory_grow`. The statements after `ckb_exit(-10)`
build the result with `value = -1`. -/
def wavm_intrinsic_memory_grow (dummy : Nat) (grow_by : Int) (s : Host) :
    Outcome wavm_ret_int32_t :=
  (ckb_debug (literal "Implement memory.grow!") s).bind fun _ s1 =>
    (ckb_exit (-10) s1).bind fun _ s2 =>
      .returned { dummy := dummy, value := -1 } s2

/-- The descriptor loop `for (int32_t i = 0; i < num; i++)` with the running
`written_bytes`; the value returned is the final `written_bytes`. The counter
stays below `num`, so `i++` does not wrap. -/
def descLoop (address num : Int) : Nat → Int → Int → Host → Outcome Int
  | 0, i, written_bytes, s =>
    if i < num then .outOfFuel s else .returned written_bytes s
  | fuel + 1, i, written_bytes, s =>
    if i < num then
      let buffer_address := bufferAddress s.mem address i
      let buffer_length := bufferLength s.mem address i
      (writeChunks buffer_address buffer_length s).bind fun _ s1 =>
        descLoop address num fuel (i + 1) (i32 (u32 (u32 written_bytes + buffer_length))) s1
    else .returned written_bytes s

/-- Source: `wavm_wasi_unstable_fd_write` of `abi/ckb_vm_wasi_abi.h`. -/
def wavm_wasi_unstable_fd_write (dummy : Nat) (fd address num written_bytes_address : Int)
    (s : Host) : Outcome wavm_ret_int32_t :=
  (descLoop address num num.toNat 0 0 s).bind fun written_bytes s1 =>
    let s2 : Host :=
      if written_bytes_address ≠ 0 then
        { s1 with mem := store32 s1.mem written_bytes_address (u32 written_bytes).toNat }
      else s1
    .returned { dummy := dummy, value := 0 } s2

/-- Source: `wavm_wasi_unstable_proc_exit` of `abi/ckb_vm_wasi_abi.h`. -/
def wavm_wasi_unstable_proc_exit (dummy : Nat) (code : Int) (s : Host) : Outcome Nat :=
  (ckb_exit code s).bind fun _ s1 =>
    .returned dummy s1

end CkbVm

/-! ## `abi/posix_wasi_abi.h` -/

namespace Posix

/-- The descriptor loop of the POSIX `fd_write`: one `write` per descriptor, its
return value converted to `int32_t` and added to `written_bytes`. -/
def descLoop (rets : Nat → Int) (fd address num : Int) : Nat → Int → Int → Host → Outcome Int
  | 0, i, written_bytes, s =>
    if i < num then .outOfFuel s else .returned written_bytes s
  | fuel + 1, i, written_bytes, s =>
    if i < num then
      let buffer_address := bufferAddress s.mem address i
      let buffer_length := bufferLength s.mem address i
      (libc_write rets fd buffer_address buffer_length s).bind fun r s1 =>
        let written : Int := i32 r
        descLoop rets fd address num fuel (i + 1) (i32 (written_bytes + written)) s1
    else .returned written_bytes s

/-- Source: `wavm_wasi_unstable_fd_write` of `abi/posix_wasi_abi.h`. -/
def wavm_wasi_unstable_fd_write (rets : Nat → Int) (dummy : Nat)
    (fd address num written_bytes_address : Int) (s : Host) : Outcome Int :=
  (descLoop rets fd address num num.toNat 0 0 s).bind fun written_bytes s1 =>
    let s2 : Host :=
      if written_bytes_address ≠ 0 then
        { s1 with mem := store32 s1.mem written_bytes_address (u32 written_bytes).toNat }
      else s1
    .returned 0 s2

/-- Source: `wavm_wasi_unstable_proc_exit` of `abi/posix_wasi_abi.h`. -/
def wavm_wasi_unstable_proc_exit (dummy : Nat) (code : Int) (s : Host) : Outcome Unit :=
  libc_exit code s

end Posix

/-! ## `ckb_vm_wasi_wrapper.c` -/

namespace Wrapper

/-- The descriptor loop of the wrapper: same as the chain-VM one. -/
def descLoop (address num : Int) : Nat → Int → Int → Host → Outcome Int
  | 0, i, written_bytes, s =>
    if i < num then .outOfFuel s else .returned written_bytes s
  | fuel + 1, i, written_bytes, s =>
    if i < num then
      let buffer_address := bufferAddress s.mem address i
      let buffer_length := bufferLength s.mem address i
      (writeChunks buffer_address buffer_length s).bind fun _ s1 =>
        descLoop address num fuel (i + 1) (i32 (u32 (u32 written_bytes + buffer_length))) s1
    else .returned written_bytes s

/-- Source: `wavm_wasi_unstable_fd_write` of `ckb_vm_wasi_wrapper.c`; the fifth
argument is never used. -/
def wavm_wasi_unstable_fd_write (dummy : Nat) (fd address num writtenBytesAddress : Int)
    (s : Host) : Outcome Int :=
  (descLoop address num num.toNat 0 0 s).bind fun _ s1 =>
    .returned 0 s1

/-- Source: `wavm_wasi_unstable_proc_exit` of `ckb_vm_wasi_wrapper.c`. -/
def wavm_wasi_unstable_proc_exit (dummy : Nat) (code : Int) (s : Host) : Outcome Unit :=
  ckb_exit code s

end Wrapper

/-! ## A sink that accepts every byte -/

/-- Modelled from the spec: a writable descriptor that accepts every byte. Each
`write` call appends to the target the `count` bytes found at `buf` in the
memory `m` the call was made on; other events append nothing. -/
def acceptedBytes (m : Memory) : List Event → List Byte
  | [] => []
  | .write _ buf count :: es => readBytes m buf count ++ acceptedBytes m es
  | _ :: es => acceptedBytes m es

/-! ## What a call added to the trace -/

/-- The host primitive calls made during a call that started in state `s`. -/
def newEvents {α : Type} (s : Host) (o : Outcome α) : List Event :=
  o.host.trace.drop s.trace.length

/-- The strings handed to `ckb_debug` during a call that started in state `s`. -/
def emitted {α : Type} (s : Host) (o : Outcome α) : List (List Byte) :=
  debugLog (newEvents s o)

/-! ## The iterations of the chunking loop -/

/-- The values `(written, b)` of the successive iterations of the chunking loop
on a buffer of `buffer_length` bytes: the integer part of `chunkLoop`, which does
not depend on the memory. An iteration whose `b` leaves `0 ≤ b ≤ 64` is listed
and is the last one. -/
def chunkSteps (buffer_length : Nat) : Nat → Int → List (Int × Int)
  | 0, _ => []
  | fuel + 1, written =>
    if u32 written < buffer_length then
      let left_bytes : Int := i32 (u32 (buffer_length - u32 written))
      let b : Int := if left_bytes > 64 then 64 else left_bytes
      (written, b) :: (if 0 ≤ b ∧ b ≤ 64 then chunkSteps buffer_length fuel (i32 (written + b))
        else [])
    else []

/-- The string `ckb_debug` reads after the iteration `(written, b)` copied `b`
bytes from `&buf[written]` and stored the terminator: the copied bytes up to
the first NUL among them. -/
def stepText (m : Memory) (buf : Int) (step : Int × Int) : List Byte :=
  (readBytes m (buf + step.1) step.2.toNat).takeWhile (fun x => decide (x ≠ 0))

/-- The chunk sequence of descriptor `i` of the array at `address`: the strings
the chunking loop hands to `ckb_debug` when it is run on the buffer that the
descriptor names, in the memory `m`. -/
def descriptorChunks (m : Memory) (address i : Int) : List (List Byte) :=
  emitted { mem := m, temp_buffer := fun _ => 0, trace := [] }
    (writeChunks (bufferAddress m address i) (bufferLength m address i)
      { mem := m, temp_buffer := fun _ => 0, trace := [] })

/-! ## Observations that leave the scratch buffer out -/

/-- The host state with the content of the scratch buffer blanked. -/
def Host.forgetScratch (h : Host) : Host := { h with temp_buffer := fun _ => 0 }

/-- The outcome with the content of the scratch buffer blanked: how the call
ended, the value returned, the memory and the trace. -/
def Outcome.forgetScratch {α : Type} : Outcome α → Outcome α
  | .returned v s => .returned v s.forgetScratch
  | .exited c s => .exited c s.forgetScratch
  | .overrun s => .overrun s.forgetScratch
  | .outOfFuel s => .outOfFuel s.forgetScratch

/-! ## Concrete inputs used by the evaluation theorems -/

/-- The memory holding the listed bytes at the listed displacements and 0
everywhere else. -/
def memOf (l : List (Int × Nat)) : Memory := fun a =>
  match l.lookup a with
  | some v => ⟨v % 256, Nat.mod_lt _ (by decide)⟩
  | none => 0

/-- A host state with the given memory, a scratch buffer full of 0xAA and an
empty trace. -/
def hostOf (m : Memory) : Host := { mem := m, temp_buffer := fun _ => 170, trace := [] }

/-- One descriptor at displacement 8: buffer at 32, length 0x80000000. -/
def memHuge : Memory := memOf [(8, 32), (15, 128), (32, 65)]

/-- One descriptor at displacement 8: buffer at 32, length 3, holding the bytes
0x41 0x00 0x42. -/
def memNul : Memory := memOf [(8, 32), (12, 3), (32, 65), (33, 0), (34, 66)]

/-- One descriptor at displacement 8: buffer at 32, length 5, holding "hello". -/
def memHello : Memory :=
  memOf [(8, 32), (12, 5), (32, 104), (33, 101), (34, 108), (35, 108), (36, 111)]

/-- Two descriptors: the one at displacement -8 points to the byte 0x41 at 64,
the one at displacement 2^32 - 8 points to the byte 0x42 at 65; both have
length 1. -/
def memSigned : Memory :=
  memOf [(-8, 64), (-4, 1), (4294967288, 65), (4294967292, 1), (64, 65), (65, 66)]

/-- Two descriptors at displacement 8: the first names 0x80000000 bytes at 32,
the second names the single byte 0x41 at 32. -/
def memTwo : Memory := memOf [(8, 32), (15, 128), (16, 32), (20, 1), (32, 65)]

/-- One descriptor at displacement 8: buffer at 32, length 130, every byte of
the buffer 0x61 except a NUL at offset 70. -/
def memLong : Memory := fun a =>
  if a = 8 then 32 else if a = 12 then 130 else if a = 102 then 0
  else if 32 ≤ a ∧ a < 162 then 97 else 0

/-! # Theorems -/

/-! ## Integer conversions -/

theorem i32_of_range (x : Int) (h0 : -2147483648 ≤ x) (h1 : x < 2147483648) : i32 x = x := by
  unfold i32; omega

theorem u32_of_range (x : Int) (h0 : 0 ≤ x) (h1 : x < 4294967296) : u32 x = x := by
  unfold u32; omega

theorem u32_i32 (x : Int) : u32 (i32 x) = u32 x := by
  unfold u32 i32; omega

theorem i32_add_i32 (x y : Int) : i32 (i32 x + i32 y) = i32 (x + y) := by
  unfold i32; omega

theorem i32_u32_add (x : Int) (n : Nat) : i32 (u32 (i32 x) + n) = i32 (x + n) := by
  unfold i32 u32; omega

theorem i32_neg_of_large (L : Nat) (h0 : 2147483648 ≤ L) (h1 : L < 4294967296) :
    i32 (u32 ((L : Int) - u32 0)) < 0 := by
  unfold i32 u32; omega

/-! ## Memory -/

theorem load32_lt (m : Memory) (a : Int) : load32 m a < 4294967296 := by
  unfold load32
  have h0 := (m a).isLt
  have h1 := (m (a + 1)).isLt
  have h2 := (m (a + 2)).isLt
  have h3 := (m (a + 3)).isLt
  omega

theorem load32_store32 (m : Memory) (a : Int) (v : Nat) :
    load32 (store32 m a v) a = v % 4294967296 := by
  have e1 : ¬ (a + 1 = a) := by omega
  have e2 : ¬ (a + 2 = a) := by omega
  have e3 : ¬ (a + 3 = a) := by omega
  have e4 : ¬ (a + 2 = a + 1) := by omega
  have e5 : ¬ (a + 3 = a + 1) := by omega
  have e6 : ¬ (a + 3 = a + 2) := by omega
  simp only [load32, store32, byteOf, if_true, if_false, e1, e2, e3, e4, e5, e6]
  norm_num
  omega

theorem store32_other (m : Memory) (a : Int) (v : Nat) (x : Int)
    (h : x < a ∨ a + 3 < x) : store32 m a v x = m x := by
  have e0 : ¬ (x = a) := by omega
  have e1 : ¬ (x = a + 1) := by omega
  have e2 : ¬ (x = a + 2) := by omega
  have e3 : ¬ (x = a + 3) := by omega
  simp only [store32, e0, e1, e2, e3, if_false]

theorem readBytes_length (m : Memory) (n : Nat) : ∀ src : Int, (readBytes m src n).length = n := by
  induction n with
  | zero => intro src; rfl
  | succ n ih => intro src; simp [readBytes, ih]

theorem readBytes_append (m : Memory) (a b : Nat) :
    ∀ src : Int, readBytes m src (a + b) = readBytes m src a ++ readBytes m (src + a) b := by
  induction a with
  | zero => intro src; simp [readBytes]
  | succ a ih =>
    intro src
    have e : a + 1 + b = (a + b) + 1 := by omega
    rw [e]
    simp only [readBytes, List.cons_append, ih (src + 1)]
    have e2 : src + 1 + (a : Int) = src + ((a + 1 : Nat) : Int) := by push_cast; ring
    rw [e2]

/-! ## The scratch buffer as a C string -/

theorem cstrFrom_terminated (m : Memory) :
    ∀ (n fuel k0 : Nat) (src : Int) (tb : Nat → Byte), n < fuel →
      (∀ k, k < n → tb (k0 + k) = m (src + k)) → tb (k0 + n) = 0 →
      cstrFrom tb fuel k0 = (readBytes m src n).takeWhile (fun x => decide (x ≠ 0)) := by
  intro n
  induction n with
  | zero =>
    intro fuel k0 src tb hf _ hz
    obtain ⟨f, rfl⟩ : ∃ f, fuel = f + 1 := ⟨fuel - 1, by omega⟩
    have hz0 : tb k0 = 0 := by simpa using hz
    simp [cstrFrom, readBytes, hz0]
  | succ n ih =>
    intro fuel k0 src tb hf hcopy hz
    obtain ⟨f, rfl⟩ : ∃ f, fuel = f + 1 := ⟨fuel - 1, by omega⟩
    have h0 : tb k0 = m src := by simpa using hcopy 0 (by omega)
    by_cases hm : m src = 0
    · simp [cstrFrom, readBytes, h0, hm]
    · have hrec := ih f (k0 + 1) (src + 1) tb (by omega)
        (fun k hk => by
          have := hcopy (k + 1) (by omega)
          have e1 : k0 + 1 + k = k0 + (k + 1) := by omega
          have e2 : src + 1 + (k : Int) = src + ((k + 1 : Nat) : Int) := by push_cast; ring
          rw [e1, e2]; exact this)
        (by
          have e1 : k0 + 1 + n = k0 + (n + 1) := by omega
          rw [e1]; exact hz)
      simp [cstrFrom, readBytes, h0, hm, hrec]

theorem cstr_chunk (tb : Nat → Byte) (m : Memory) (src : Int) (b : Nat) (hb : b ≤ 64) :
    cstr (setTemp (memcpyTemp tb m src b) b 0)
      = (readBytes m src b).takeWhile (fun x => decide (x ≠ 0)) := by
  unfold cstr
  apply cstrFrom_terminated m b 65 0 src
  · omega
  · intro k hk
    have hne : ¬ (0 + k = b) := by omega
    have hlt : 0 + k < b := by omega
    simp only [setTemp, memcpyTemp, hne, hlt, if_true, if_false]
    simp
  · simp [setTemp]

theorem takeWhile_nonzero_length_le (l : List Byte) :
    (l.takeWhile (fun x => decide (x ≠ 0))).length ≤ l.length := by
  induction l with
  | nil => simp
  | cons a l ih =>
    rw [List.takeWhile_cons]
    by_cases h : a = 0
    · simp [h]
    · have hp : decide (a ≠ 0) = true := by simp [h]
      rw [hp]
      simp only [if_true, List.length_cons]
      omega

theorem takeWhile_nonzero_readBytes (m : Memory) (n : Nat) :
    ∀ src : Int, (∀ k : Nat, k < n → m (src + k) ≠ 0) →
      (readBytes m src n).takeWhile (fun x => decide (x ≠ 0)) = readBytes m src n := by
  induction n with
  | zero => intro src _; simp [readBytes]
  | succ n ih =>
    intro src h
    have h0 : m src ≠ 0 := by simpa using h 0 (by omega)
    have hrec := ih (src + 1) (fun k hk => by
      have := h (k + 1) (by omega)
      have e2 : src + 1 + (k : Int) = src + ((k + 1 : Nat) : Int) := by push_cast; ring
      rw [e2]; exact this)
    simp only [readBytes]
    rw [List.takeWhile_cons, hrec]
    simp [h0]

/-! ## The chunking loop -/

theorem chunkLoop_done (buf : Int) (L fuel : Nat) (w : Int) (s : Host)
    (h : ¬ u32 w < L) : chunkLoop buf L fuel w s = .returned w s := by
  cases fuel <;> simp [chunkLoop, h]

/-- One iteration of the chunking loop when fewer than 2^31 bytes are left. -/
theorem chunkLoop_step (buf : Int) (L fuel w : Nat) (s : Host)
    (hw : w < L) (hL : L < 2147483648) :
    chunkLoop buf L (fuel + 1) (w : Int) s
      = chunkLoop buf L fuel ((w + min 64 (L - w) : Nat) : Int)
          { mem := s.mem
            temp_buffer :=
              setTemp (memcpyTemp s.temp_buffer s.mem (buf + w) (min 64 (L - w))) (min 64 (L - w)) 0
            trace := s.trace ++
              [Event.debug ((readBytes s.mem (buf + w) (min 64 (L - w))).takeWhile
                (fun x => decide (x ≠ 0)))] } := by
  have hu : u32 (w : Int) = w := u32_of_range _ (by omega) (by omega)
  have hcond : u32 (w : Int) < (L : Int) := by rw [hu]; omega
  have hlb : i32 (u32 ((L : Int) - u32 (w : Int))) = (L : Int) - w := by
    rw [hu, u32_of_range _ (by omega) (by omega), i32_of_range _ (by omega) (by omega)]
  have hb : (if (L : Int) - w > 64 then (64 : Int) else (L : Int) - w)
      = ((min 64 (L - w) : Nat) : Int) := by
    split <;> omega
  have hb0 : (0 : Int) ≤ ((min 64 (L - w) : Nat) : Int) ∧ ((min 64 (L - w) : Nat) : Int) ≤ 64 := by
    omega
  have hnext : i32 ((w : Int) + ((min 64 (L - w) : Nat) : Int))
      = ((w + min 64 (L - w) : Nat) : Int) := by
    rw [i32_of_range _ (by omega) (by omega)]; push_cast; rfl
  rw [chunkLoop]
  simp only [hcond, if_true, hlb, hb, hb0, and_self, Int.toNat_ofNat, hnext, ckb_debug,
    Outcome.bind]
  rw [cstr_chunk _ _ _ _ (by omega)]

/-- The first iteration overruns the scratch buffer when the length has its top
bit set: `left_bytes`, and with it `b`, is negative. -/
theorem chunkLoop_overrun (buf : Int) (L fuel : Nat) (s : Host)
    (h0 : 2147483648 ≤ L) (h1 : L < 4294967296) :
    chunkLoop buf L (fuel + 1) 0 s = .overrun s := by
  have hcond : u32 0 < (L : Int) := by unfold u32; omega
  have hneg := i32_neg_of_large L h0 h1
  have hb : ¬ ((0 : Int) ≤ (if i32 (u32 ((L : Int) - u32 0)) > 64 then (64 : Int)
      else i32 (u32 ((L : Int) - u32 0))) ∧
      (if i32 (u32 ((L : Int) - u32 0)) > 64 then (64 : Int)
      else i32 (u32 ((L : Int) - u32 0))) ≤ 64) := by
    split <;> omega
  rw [chunkLoop, if_pos hcond]
  exact if_neg hb

/-- The chunking loop on a buffer shorter than 2^31 bytes, entered with
`written = w`: it returns with `written = L`, leaves the memory alone and makes
`ceil((L - w) / 64)` calls of `ckb_debug`, each with a string of at most 64
bytes; when the rest of the buffer holds no NUL the strings add up to it. -/
theorem chunkLoop_spec (buf : Int) (L : Nat) (hL : L < 2147483648) :
    ∀ (fuel w : Nat) (s : Host), w ≤ L → L - w ≤ fuel →
      ∃ (tb : Nat → Byte) (chunks : List (List Byte)),
        chunkLoop buf L fuel (w : Int) s
          = .returned (L : Int)
              { mem := s.mem, temp_buffer := tb, trace := s.trace ++ chunks.map Event.debug } ∧
        chunks.length = (L - w + 63) / 64 ∧
        (∀ c ∈ chunks, c.length ≤ 64) ∧
        ((∀ k : Nat, k < L - w → s.mem (buf + w + k) ≠ 0) →
          chunks.flatten = readBytes s.mem (buf + w) (L - w)) := by
  intro fuel
  induction fuel with
  | zero =>
    intro w s hw hf
    have hwL : w = L := by omega
    subst hwL
    have hu : u32 (w : Int) = w := u32_of_range _ (by omega) (by omega)
    refine ⟨s.temp_buffer, [], ?_, by simp, by simp, ?_⟩
    · rw [chunkLoop_done _ _ _ _ _ (by rw [hu]; omega)]
      simp
    · intro _; simp [readBytes]
  | succ fuel ih =>
    intro w s hw hf
    by_cases hwL : w = L
    · subst hwL
      have hu : u32 (w : Int) = w := u32_of_range _ (by omega) (by omega)
      refine ⟨s.temp_buffer, [], ?_, by simp, by simp, ?_⟩
      · rw [chunkLoop_done _ _ _ _ _ (by rw [hu]; omega)]
        simp
      · intro _; simp [readBytes]
    · have hlt : w < L := by omega
      rw [chunkLoop_step buf L fuel w s hlt hL]
      have hbpos : 1 ≤ min 64 (L - w) := by omega
      have hble : min 64 (L - w) ≤ 64 := by omega
      have hble2 : min 64 (L - w) ≤ L - w := by omega
      generalize hbdef : min 64 (L - w) = b at hbpos hble hble2
      obtain ⟨tb, chunks, hrun, hlen, hsz, hcat⟩ :=
        ih (w + b)
          { mem := s.mem
            temp_buffer := setTemp (memcpyTemp s.temp_buffer s.mem (buf + w) b) b 0
            trace := s.trace ++
              [Event.debug ((readBytes s.mem (buf + w) b).takeWhile
                (fun x => decide (x ≠ 0)))] }
          (by omega) (by omega)
      refine ⟨tb, (readBytes s.mem (buf + w) b).takeWhile (fun x => decide (x ≠ 0)) :: chunks,
        ?_, ?_, ?_, ?_⟩
      · rw [hrun]; simp
      · rw [List.length_cons, hlen]
        rcases Nat.lt_or_ge 64 (L - w) with h64 | h64
        · have hb64 : b = 64 := by omega
          omega
        · have hbL : b = L - w := by omega
          have e1 : L - (w + b) = 0 := by omega
          rw [e1]
          omega
      · intro c hc
        rcases List.mem_cons.mp hc with rfl | hc
        · have h1 := takeWhile_nonzero_length_le (readBytes s.mem (buf + w) b)
          rw [readBytes_length] at h1
          omega
        · exact hsz c hc
      · intro hnz
        have hhead := takeWhile_nonzero_readBytes s.mem b (buf + w)
          (fun k hk => hnz k (by omega))
        have htail := hcat (fun k hk => by
          have := hnz (b + k) (by omega)
          have e : buf + ((w + b : Nat) : Int) + (k : Int) = buf + w + ((b + k : Nat) : Int) := by
            push_cast; ring
          rw [e]; exact this)
        rw [List.flatten_cons, hhead, htail]
        have e1 : L - w = b + (L - (w + b)) := by omega
        have e2 : buf + ((w + b : Nat) : Int) = buf + w + (b : Int) := by push_cast; ring
        rw [e1, readBytes_append, e2]

/-- The model never runs out of fuel in the chunking loop: started with
`written = 0` and fuel `buffer_length`, the loop either returns or overruns. -/
theorem chunkLoop_fuel_suffices (buf : Int) (L : Nat) (hL : L < 4294967296) (s : Host) :
    (writeChunks buf L s).isOutOfFuel = false := by
  unfold writeChunks
  rcases Nat.lt_or_ge L 2147483648 with h | h
  · obtain ⟨tb, chunks, hrun, -⟩ := chunkLoop_spec buf L h L 0 s (by omega) (by omega)
    have e : ((0 : Nat) : Int) = 0 := rfl
    rw [e] at hrun
    rw [hrun]; rfl
  · obtain ⟨f, rfl⟩ : ∃ f, L = f + 1 := ⟨L - 1, by omega⟩
    rw [chunkLoop_overrun buf (f + 1) f s h hL]; rfl

/-! ## Sums and maps over `List.range` -/

theorem map_range_succ_shift {β : Type} (g : Nat → β) (n : Nat) :
    (List.range (n + 1)).map g = g 0 :: (List.range n).map (fun k => g (k + 1)) := by
  rw [List.range_succ_eq_map, List.map_cons, List.map_map]
  rfl

theorem sum_range_succ_shift (f : Nat → Int) (n : Nat) :
    ((List.range (n + 1)).map f).sum = f 0 + ((List.range n).map (fun k => f (k + 1))).sum := by
  rw [map_range_succ_shift, List.sum_cons]

theorem natsum_range_succ_shift (f : Nat → Nat) (n : Nat) :
    ((List.range (n + 1)).map f).sum = f 0 + ((List.range n).map (fun k => f (k + 1))).sum := by
  rw [map_range_succ_shift, List.sum_cons]

/-! ## The POSIX descriptor loop -/

theorem i32_idem (x : Int) : i32 (i32 x) = i32 x := by
  unfold i32; omega

/-- The POSIX descriptor loop makes one `write` call per remaining descriptor, in
index order, never touches the memory, and returns the running total plus the
values the calls returned (as `int32_t`). -/
theorem Posix.posix_descLoop_spec (rets : Nat → Int) (fd address num : Int) :
    ∀ (fuel : Nat) (i wb : Int) (s : Host), (num - i).toNat = fuel → i32 wb = wb →
      Posix.descLoop rets fd address num fuel i wb s
        = .returned
            (i32 (wb + ((List.range fuel).map (fun k => rets (s.trace.length + k))).sum))
            { mem := s.mem
              temp_buffer := s.temp_buffer
              trace := s.trace ++ (List.range fuel).map (fun k : Nat =>
                Event.write fd (bufferAddress s.mem address (i + (k : Int)))
                  (bufferLength s.mem address (i + (k : Int)))) } := by
  intro fuel
  induction fuel with
  | zero =>
    intro i wb s h hwb
    have hc : ¬ (i < num) := by omega
    simp only [Posix.descLoop, hc, if_false, List.range_zero, List.map_nil, List.sum_nil,
      List.append_nil, add_zero, hwb]
  | succ fuel ih =>
    intro i wb s h hwb
    have hc : i < num := by omega
    rw [Posix.descLoop, if_pos hc]
    simp only [libc_write, Outcome.bind]
    rw [ih (i + 1) _ _ (by omega) (i32_idem _)]
    rw [sum_range_succ_shift, map_range_succ_shift]
    have e1 : (fun k : Nat => rets ((s.trace ++ [Event.write fd (bufferAddress s.mem address i)
        (bufferLength s.mem address i)]).length + k))
        = (fun k : Nat => rets (s.trace.length + (k + 1))) := by
      funext k
      congr 1
      simp only [List.length_append, List.length_singleton]
      omega
    have e2 : (fun k : Nat => Event.write fd (bufferAddress s.mem address (i + 1 + (k : Int)))
        (bufferLength s.mem address (i + 1 + (k : Int))))
        = (fun k : Nat => Event.write fd (bufferAddress s.mem address (i + ((k + 1 : Nat) : Int)))
        (bufferLength s.mem address (i + ((k + 1 : Nat) : Int)))) := by
      funext k
      have e : i + 1 + (k : Int) = i + ((k + 1 : Nat) : Int) := by push_cast; ring
      rw [e]
    simp only [e1, e2, Nat.add_zero, Nat.cast_zero, add_zero, List.append_assoc,
      List.singleton_append]
    congr 1
    generalize ((List.range fuel).map (fun k : Nat => rets (s.trace.length + (k + 1)))).sum = S
    generalize rets s.trace.length = r
    unfold i32; omega

/-- The POSIX `fd_write` always returns 0; its trace grows by one `write` call
per descriptor and the memory changes only by the write-back of the total. -/
theorem Posix.fd_write_spec (rets : Nat → Int) (dummy : Nat)
    (fd address num written_bytes_address : Int) (s : Host) :
    Posix.wavm_wasi_unstable_fd_write rets dummy fd address num written_bytes_address s
      = .returned 0
          { mem :=
              if written_bytes_address ≠ 0 then
                store32 s.mem written_bytes_address
                  (u32 (i32 (0 + ((List.range num.toNat).map
                    (fun k => rets (s.trace.length + k))).sum))).toNat
              else s.mem
            temp_buffer := s.temp_buffer
            trace := s.trace ++ (List.range num.toNat).map (fun k : Nat =>
              Event.write fd (bufferAddress s.mem address (0 + (k : Int)))
                (bufferLength s.mem address (0 + (k : Int)))) } := by
  unfold Posix.wavm_wasi_unstable_fd_write
  rw [Posix.posix_descLoop_spec rets fd address num num.toNat 0 0 s (by simp) (by decide)]
  by_cases h : written_bytes_address = 0
  · simp [Outcome.bind, h]
  · simp [Outcome.bind, h]

theorem cast_sum_map_eq (f : Nat → Int) (g : Nat → Nat) (l : List Nat)
    (h : ∀ k ∈ l, f k = (g k : Int)) : (l.map f).sum = (((l.map g).sum : Nat) : Int) := by
  induction l with
  | nil => simp
  | cons a l ih =>
    have h1 := h a (List.mem_cons_self a l)
    have h2 := ih (fun k hk => h k (List.mem_cons_of_mem a hk))
    simp only [List.map_cons, List.sum_cons, h1, h2]
    push_cast
    rfl

theorem acceptedBytes_writes (m : Memory) (fd : Int) (buf : Nat → Int) (len : Nat → Nat) :
    ∀ l : List Nat, acceptedBytes m (l.map (fun k => Event.write fd (buf k) (len k)))
      = l.flatMap (fun k => readBytes m (buf k) (len k)) := by
  intro l
  induction l with
  | nil => rfl
  | cons a l ih => simp only [List.map_cons, acceptedBytes, ih, List.flatMap_cons]

/-! ## Traces -/

theorem debugLog_map_debug (chunks : List (List Byte)) :
    debugLog (chunks.map Event.debug) = chunks := by
  induction chunks with
  | nil => rfl
  | cons c cs ih => simp only [List.map_cons, debugLog, ih]

theorem drop_length_append (t u : List Event) : (t ++ u).drop t.length = u := by
  simp

/-! ## The chain-VM descriptor loop -/

/-- When every remaining length field is below 2^31 the chain-VM descriptor loop
returns the running total plus those lengths (as `int32_t`), leaves the memory
alone and only adds `ckb_debug` calls to the trace. -/
theorem CkbVm.ckbvm_descLoop_spec (address num : Int) :
    ∀ (fuel : Nat) (i wb : Int) (s : Host), (num - i).toNat = fuel → i32 wb = wb →
      (∀ k : Nat, k < fuel → bufferLength s.mem address (i + (k : Int)) < 2147483648) →
      ∃ (tb : Nat → Byte) (chunks : List (List Byte)),
        CkbVm.descLoop address num fuel i wb s
          = .returned
              (i32 (wb + (((List.range fuel).map
                (fun k : Nat => bufferLength s.mem address (i + (k : Int)))).sum : Nat)))
              { mem := s.mem, temp_buffer := tb, trace := s.trace ++ chunks.map Event.debug } := by
  intro fuel
  induction fuel with
  | zero =>
    intro i wb s h hwb _
    have hc : ¬ (i < num) := by omega
    refine ⟨s.temp_buffer, [], ?_⟩
    simp only [CkbVm.descLoop, hc, if_false, List.range_zero, List.map_nil, List.sum_nil,
      List.append_nil, Nat.cast_zero, add_zero, hwb]
  | succ fuel ih =>
    intro i wb s h hwb hsmall
    have hc : i < num := by omega
    have h0 : bufferLength s.mem address i < 2147483648 := by
      have := hsmall 0 (by omega)
      simpa using this
    obtain ⟨tb1, chunks1, hrun1, -⟩ :=
      chunkLoop_spec (bufferAddress s.mem address i) (bufferLength s.mem address i) h0
        (bufferLength s.mem address i) 0 s (by omega) (by omega)
    have e0 : ((0 : Nat) : Int) = 0 := rfl
    rw [e0] at hrun1
    obtain ⟨tb2, chunks2, hrun2⟩ :=
      ih (i + 1) (i32 (u32 (u32 wb + (bufferLength s.mem address i : Int))))
        { mem := s.mem, temp_buffer := tb1, trace := s.trace ++ chunks1.map Event.debug }
        (by omega) (i32_idem _)
        (fun k hk => by
          have := hsmall (k + 1) (by omega)
          have e : i + 1 + (k : Int) = i + ((k + 1 : Nat) : Int) := by push_cast; ring
          rw [e]; exact this)
    refine ⟨tb2, chunks1 ++ chunks2, ?_⟩
    rw [CkbVm.descLoop, if_pos hc]
    simp only [writeChunks, hrun1, Outcome.bind]
    rw [hrun2, natsum_range_succ_shift]
    have e2 : (fun k : Nat => bufferLength s.mem address (i + 1 + (k : Int)))
        = (fun k : Nat => bufferLength s.mem address (i + ((k + 1 : Nat) : Int))) := by
      funext k
      have e : i + 1 + (k : Int) = i + ((k + 1 : Nat) : Int) := by push_cast; ring
      rw [e]
    simp only [e2, Nat.cast_zero, add_zero, List.map_append, List.append_assoc]
    congr 1
    generalize ((List.range fuel).map
      (fun k : Nat => bufferLength s.mem address (i + ((k + 1 : Nat) : Int)))).sum = S
    generalize bufferLength s.mem address i = l0
    push_cast
    unfold i32 u32; omega

/-- When every length field is below 2^31 the chain-VM `fd_write` returns 0, only
adds `ckb_debug` calls to the trace, and changes the memory only by writing the
sum of the lengths (modulo 2^32) at a non-zero `written_bytes_address`. -/
theorem CkbVm.fd_write_spec_of_small (dummy : Nat) (fd address num written_bytes_address : Int)
    (s : Host)
    (hsmall : ∀ k : Nat, k < num.toNat → bufferLength s.mem address (k : Int) < 2147483648) :
    ∃ (tb : Nat → Byte) (chunks : List (List Byte)),
      CkbVm.wavm_wasi_unstable_fd_write dummy fd address num written_bytes_address s
        = .returned { dummy := dummy, value := 0 }
            { mem :=
                if written_bytes_address ≠ 0 then
                  store32 s.mem written_bytes_address
                    (((List.range num.toNat).map
                      (fun k : Nat => bufferLength s.mem address (k : Int))).sum % 4294967296)
                else s.mem
              temp_buffer := tb
              trace := s.trace ++ chunks.map Event.debug } := by
  obtain ⟨tb, chunks, hrun⟩ := CkbVm.ckbvm_descLoop_spec address num num.toNat 0 0 s (by simp)
    (by decide) (fun k hk => by simpa using hsmall k hk)
  refine ⟨tb, chunks, ?_⟩
  unfold CkbVm.wavm_wasi_unstable_fd_write
  rw [hrun]
  have e : (fun k : Nat => bufferLength s.mem address (0 + (k : Int)))
      = (fun k : Nat => bufferLength s.mem address (k : Int)) := by
    funext k; rw [zero_add]
  simp only [Outcome.bind, e, zero_add]
  have hv : (u32 (i32 ((((List.range num.toNat).map
      (fun k : Nat => bufferLength s.mem address (k : Int))).sum : Nat) : Int))).toNat
      = ((List.range num.toNat).map
        (fun k : Nat => bufferLength s.mem address (k : Int))).sum % 4294967296 := by
    generalize ((List.range num.toNat).map
      (fun k : Nat => bufferLength s.mem address (k : Int))).sum = S
    rw [u32_i32]
    unfold u32
    omega
  rw [hv]
  by_cases h : written_bytes_address = 0
  · simp [h]
  · simp [h]

/-- When every length field is below 2^31 and `written_bytes_address` is not 0,
the chain-VM `fd_write` returns 0 and the word at `written_bytes_address` is
the sum of the length fields modulo 2^32. -/
theorem CkbVm.fd_write_total_of_small (dummy : Nat) (fd address num written_bytes_address : Int)
    (s : Host)
    (hsmall : ∀ k : Nat, k < num.toNat → bufferLength s.mem address (k : Int) < 2147483648)
    (hw : written_bytes_address ≠ 0) :
    (CkbVm.wavm_wasi_unstable_fd_write dummy fd address num written_bytes_address s).value?
      = some { dummy := dummy, value := 0 } ∧
    load32 (CkbVm.wavm_wasi_unstable_fd_write dummy fd address num written_bytes_address
        s).host.mem written_bytes_address
      = ((List.range num.toNat).map
          (fun k : Nat => bufferLength s.mem address (k : Int))).sum % 4294967296 := by
  obtain ⟨tb, chunks, hrun⟩ :=
    CkbVm.fd_write_spec_of_small dummy fd address num written_bytes_address s hsmall
  rw [hrun]
  simp only [Outcome.value?, Outcome.host, hw, ne_eq, not_false_eq_true, if_true,
    load32_store32, true_and]
  omega

/-- When every length field is below 2^31 and `written_bytes_address` is 0, the
chain-VM `fd_write` returns 0 and leaves the memory as it was. -/
theorem CkbVm.fd_write_frame_of_small (dummy : Nat) (fd address num : Int) (s : Host)
    (hsmall : ∀ k : Nat, k < num.toNat → bufferLength s.mem address (k : Int) < 2147483648) :
    (CkbVm.wavm_wasi_unstable_fd_write dummy fd address num 0 s).value?
      = some { dummy := dummy, value := 0 } ∧
    (CkbVm.wavm_wasi_unstable_fd_write dummy fd address num 0 s).host.mem = s.mem := by
  obtain ⟨tb, chunks, hrun⟩ := CkbVm.fd_write_spec_of_small dummy fd address num 0 s hsmall
  rw [hrun]
  simp [Outcome.value?, Outcome.host]

/-! ## Fuel is only a device of the model -/

/-- The chain-VM descriptor loop never runs out of fuel: with one unit of fuel
per remaining descriptor it returns or overruns. -/
theorem CkbVm.descLoop_fuel_suffices (address num : Int) :
    ∀ (fuel : Nat) (i wb : Int) (s : Host), (num - i).toNat = fuel →
      (CkbVm.descLoop address num fuel i wb s).isOutOfFuel = false := by
  intro fuel
  induction fuel with
  | zero =>
    intro i wb s h
    have hc : ¬ (i < num) := by omega
    simp only [CkbVm.descLoop, hc, if_false, Outcome.isOutOfFuel]
  | succ fuel ih =>
    intro i wb s h
    have hc : i < num := by omega
    rw [CkbVm.descLoop, if_pos hc]
    have hf := chunkLoop_fuel_suffices (bufferAddress s.mem address i)
      (bufferLength s.mem address i) (load32_lt _ _) s
    cases hrun : writeChunks (bufferAddress s.mem address i) (bufferLength s.mem address i) s with
    | returned v s1 =>
      simp only [hrun, Outcome.bind]
      exact ih (i + 1) _ s1 (by omega)
    | exited c s1 => simp only [hrun, Outcome.bind, Outcome.isOutOfFuel]
    | overrun s1 => simp only [hrun, Outcome.bind, Outcome.isOutOfFuel]
    | outOfFuel s1 =>
      rw [hrun] at hf
      simp [Outcome.isOutOfFuel] at hf

/-- The chain-VM `fd_write` never ends in the out-of-fuel outcome of the model:
on every input it returns or overruns the scratch buffer. -/
theorem CkbVm.fd_write_fuel_suffices (dummy : Nat) (fd address num written_bytes_address : Int)
    (s : Host) :
    (CkbVm.wavm_wasi_unstable_fd_write dummy fd address num written_bytes_address
      s).isOutOfFuel = false := by
  unfold CkbVm.wavm_wasi_unstable_fd_write
  have hf := CkbVm.descLoop_fuel_suffices address num num.toNat 0 0 s (by simp)
  cases hrun : CkbVm.descLoop address num num.toNat 0 0 s with
  | returned v s1 => simp only [Outcome.bind, Outcome.isOutOfFuel]
  | exited c s1 => simp only [Outcome.bind, Outcome.isOutOfFuel]
  | overrun s1 => simp only [Outcome.bind, Outcome.isOutOfFuel]
  | outOfFuel s1 =>
    rw [hrun] at hf
    simp [Outcome.isOutOfFuel] at hf

/-! ## Length fields with the top bit set -/

/-- The chunking loop entered on a length of 2^31 or more overruns at once. -/
theorem writeChunks_overrun (buf : Int) (L : Nat) (s : Host)
    (h0 : 2147483648 ≤ L) (h1 : L < 4294967296) : writeChunks buf L s = .overrun s := by
  obtain ⟨f, rfl⟩ : ∃ f, L = f + 1 := ⟨L - 1, by omega⟩
  exact chunkLoop_overrun buf (f + 1) f s h0 h1

/-- When the first descriptor has a length field of 2^31 or more, the chain-VM
`fd_write` overruns the scratch buffer before it logs or stores anything. -/
theorem CkbVm.fd_write_overrun_of_huge_first (dummy : Nat)
    (fd address num written_bytes_address : Int) (s : Host) (hnum : 0 < num)
    (hlen : 2147483648 ≤ bufferLength s.mem address 0) :
    CkbVm.wavm_wasi_unstable_fd_write dummy fd address num written_bytes_address s
      = .overrun s := by
  obtain ⟨n, hn⟩ : ∃ n, num.toNat = n + 1 := ⟨num.toNat - 1, by omega⟩
  unfold CkbVm.wavm_wasi_unstable_fd_write
  rw [hn, CkbVm.descLoop, if_pos hnum]
  simp only [writeChunks_overrun _ _ s hlen (load32_lt _ _), Outcome.bind]

/-! # The claims -/

/-- C1, evaluated at a descriptor whose length field is 0x80000000 (descriptor
at 8, `num = 1`, `written_bytes_address = 4`): the chunking loop computes
`b = -2^31` and overruns the scratch buffer, the call does not return and the
word at displacement 4 still holds 0 instead of the length 2^31. -/
theorem CkbVm.fd_write_huge_length_no_write_back :
    bufferLength memHuge 8 0 = 2147483648 ∧
    (CkbVm.wavm_wasi_unstable_fd_write 0 1 8 1 4 (hostOf memHuge)).isOverrun = true ∧
    (CkbVm.wavm_wasi_unstable_fd_write 0 1 8 1 4 (hostOf memHuge)).value? = none ∧
    load32 (CkbVm.wavm_wasi_unstable_fd_write 0 1 8 1 4 (hostOf memHuge)).host.mem 4 = 0 := by
  decide

/-- C2, refuted: with one descriptor of length 5 and a `write` that returns 3 (a
short write), the POSIX `fd_write` writes back 3, not the requested 5. -/
theorem Posix.fd_write_short_write_counterexample :
    bufferLength memHello 8 0 = 5 ∧
    load32 (Posix.wavm_wasi_unstable_fd_write (fun _ => 3) 0 1 8 1 4
      (hostOf memHello)).host.mem 4 = 3 ∧
    ¬ (load32 (Posix.wavm_wasi_unstable_fd_write (fun _ => 3) 0 1 8 1 4
        (hostOf memHello)).host.mem 4
      = ((List.range (1 : Int).toNat).map
          (fun k : Nat => bufferLength memHello 8 (k : Int))).sum % 4294967296) := by
  decide

/-- C2, amended: in the POSIX backend the byte count written back (for a
non-zero `written_bytes_address`) is the sum, modulo 2^32, of the values the
`num` calls of the write primitive returned; hence it is the sum of the
requested descriptor lengths whenever every call returns its full count. -/
theorem Posix.fd_write_reports_returned_total (rets : Nat → Int) (dummy : Nat)
    (fd address num written_bytes_address : Int) (s : Host)
    (hw : written_bytes_address ≠ 0) :
    load32 (Posix.wavm_wasi_unstable_fd_write rets dummy fd address num
        written_bytes_address s).host.mem written_bytes_address
      = (((List.range num.toNat).map (fun k => rets (s.trace.length + k))).sum
          % 4294967296).toNat ∧
    ((∀ k : Nat, k < num.toNat → rets (s.trace.length + k) = bufferLength s.mem address k) →
      load32 (Posix.wavm_wasi_unstable_fd_write rets dummy fd address num
          written_bytes_address s).host.mem written_bytes_address
        = ((List.range num.toNat).map
            (fun k : Nat => bufferLength s.mem address (k : Int))).sum % 4294967296) := by
  have hload : load32 (Posix.wavm_wasi_unstable_fd_write rets dummy fd address num
        written_bytes_address s).host.mem written_bytes_address
      = (((List.range num.toNat).map (fun k => rets (s.trace.length + k))).sum
          % 4294967296).toNat := by
    rw [Posix.fd_write_spec]
    simp only [Outcome.host, hw, ne_eq, not_false_eq_true, if_true, load32_store32, zero_add]
    generalize ((List.range num.toNat).map (fun k => rets (s.trace.length + k))).sum = T
    rw [u32_i32]
    unfold u32
    omega
  refine ⟨hload, fun hfull => ?_⟩
  rw [hload, cast_sum_map_eq _ (fun k : Nat => bufferLength s.mem address (k : Int)) _
    (fun k hk => hfull k (List.mem_range.mp hk))]
  omega

/-- Witness of C2 (amended): one descriptor of length 5, `write` returning 5. -/
theorem Posix.fd_write_reports_returned_total_witness :
    (4 : Int) ≠ 0 ∧
    (load32 (Posix.wavm_wasi_unstable_fd_write (fun _ => 5) 0 1 8 1 4
        (hostOf memHello)).host.mem 4
      = (((List.range (1 : Int).toNat).map
          (fun k => (fun _ => (5 : Int)) ((hostOf memHello).trace.length + k))).sum
          % 4294967296).toNat ∧
    ((∀ k : Nat, k < (1 : Int).toNat →
        (fun _ => (5 : Int)) ((hostOf memHello).trace.length + k)
          = bufferLength (hostOf memHello).mem 8 k) →
      load32 (Posix.wavm_wasi_unstable_fd_write (fun _ => 5) 0 1 8 1 4
          (hostOf memHello)).host.mem 4
        = ((List.range (1 : Int).toNat).map
            (fun k : Nat => bufferLength (hostOf memHello).mem 8 (k : Int))).sum
            % 4294967296)) :=
  ⟨by decide,
    Posix.fd_write_reports_returned_total (fun _ => 5) 0 1 8 1 4 (hostOf memHello) (by decide)⟩

/-- C3, evaluated at the length 0x80000000: the chunking loop overruns the
scratch buffer in its first iteration and makes no call of `ckb_debug`, where
the claim counts ceil(2^31 / 64) = 33554432 calls. -/
theorem writeChunks_top_bit_length_overruns :
    (writeChunks 32 2147483648 (hostOf memHuge)).isOverrun = true ∧
    (writeChunks 32 2147483648 (hostOf memHuge)).host.trace = [] ∧
    (2147483648 + 63) / 64 = 33554432 := by
  decide

/-- C4, refuted: for the 3-byte buffer 0x41 0x00 0x42 the only string logged is
"A"; the payloads do not add up to the buffer. -/
theorem writeChunks_nul_byte_counterexample :
    debugLog (writeChunks 32 3 (hostOf memNul)).host.trace = [[65]] ∧
    readBytes memNul 32 3 = [65, 0, 66] ∧
    (debugLog (writeChunks 32 3 (hostOf memNul)).host.trace).flatten
      ≠ readBytes memNul 32 3 := by
  decide

/-- C4, amended: for every guest buffer of length L below 2^31 that holds no
zero byte, the chunking loop returns, every call it makes is a `ckb_debug` call,
and the payloads of the logged strings, concatenated in emission order, are
exactly the L bytes of the buffer. -/
theorem writeChunks_payloads_of_nul_free (buf : Int) (L : Nat) (s : Host)
    (hL : L < 2147483648) (hnz : ∀ k : Nat, k < L → s.mem (buf + (k : Int)) ≠ 0) :
    (writeChunks buf L s).value? = some (L : Int) ∧
    (writeChunks buf L s).host.trace
      = s.trace ++ (emitted s (writeChunks buf L s)).map Event.debug ∧
    (emitted s (writeChunks buf L s)).flatten = readBytes s.mem buf L := by
  obtain ⟨tb, chunks, hrun, -, -, hcat⟩ := chunkLoop_spec buf L hL L 0 s (by omega) (by omega)
  have e0 : ((0 : Nat) : Int) = 0 := rfl
  rw [e0] at hrun
  have hcat2 : chunks.flatten = readBytes s.mem buf L := by
    have := hcat (fun k hk => by
      have h := hnz k (by omega)
      rw [e0, add_zero]; exact h)
    rw [e0, add_zero] at this
    exact this
  unfold writeChunks
  rw [hrun]
  simp only [Outcome.value?, Outcome.host, emitted, newEvents, drop_length_append,
    debugLog_map_debug, hcat2, and_self]

/-- Witness of C4 (amended): the 5-byte buffer "hello". -/
theorem writeChunks_payloads_of_nul_free_witness :
    (5 < 2147483648 ∧ ∀ k : Nat, k < 5 → (hostOf memHello).mem (32 + (k : Int)) ≠ 0) ∧
    ((writeChunks 32 5 (hostOf memHello)).value? = some ((5 : Nat) : Int) ∧
    (writeChunks 32 5 (hostOf memHello)).host.trace
      = (hostOf memHello).trace
        ++ (emitted (hostOf memHello) (writeChunks 32 5 (hostOf memHello))).map Event.debug ∧
    (emitted (hostOf memHello) (writeChunks 32 5 (hostOf memHello))).flatten
      = readBytes (hostOf memHello).mem 32 5) :=
  ⟨⟨by decide, by decide⟩,
    writeChunks_payloads_of_nul_free 32 5 (hostOf memHello) (by decide) (by decide)⟩

/-- C5, evaluated: the POSIX `fd_write` returns 0 on every input, but at a
descriptor whose length field is 0x80000000 the chain-VM `fd_write` and the
wrapper `fd_write` overrun the scratch buffer and return nothing. -/
theorem fd_write_status_huge_length :
    (∀ (rets : Nat → Int) (dummy : Nat) (fd address num written_bytes_address : Int) (s : Host),
      (Posix.wavm_wasi_unstable_fd_write rets dummy fd address num
        written_bytes_address s).value? = some 0) ∧
    (CkbVm.wavm_wasi_unstable_fd_write 0 1 8 1 0 (hostOf memHuge)).value? = none ∧
    (Wrapper.wavm_wasi_unstable_fd_write 0 1 8 1 0 (hostOf memHuge)).value? = none ∧
    (Wrapper.wavm_wasi_unstable_fd_write 0 1 8 1 0 (hostOf memHuge)).isOverrun = true := by
  refine ⟨fun rets dummy fd address num wba s => ?_, by decide, by decide, by decide⟩
  rw [Posix.fd_write_spec]
  rfl

/-- C8, evaluated at `address = 0xFFFFFFF8` and `written_bytes_address =
0xFFFFFFF0`, which the `int32_t` parameters hold as -8 and -16: the descriptor
is read at displacement -8 (the string logged, and the buffer passed to
`write`, is the byte at 64 named there, not the byte at 65 named by the
descriptor at 2^32 - 8), and the total is stored at displacement -16 while the
word at 2^32 - 16 keeps its value 0. Only the decoded `uint32_t` buffer address
is used as an unsigned displacement. -/
theorem fd_write_signed_displacements :
    i32 4294967288 = -8 ∧ i32 4294967280 = -16 ∧
    load32 memSigned (-8) = 64 ∧ load32 memSigned 4294967288 = 65 ∧
    emitted (hostOf memSigned)
      (CkbVm.wavm_wasi_unstable_fd_write 0 1 (-8) 1 (-16) (hostOf memSigned)) = [[65]] ∧
    load32 (CkbVm.wavm_wasi_unstable_fd_write 0 1 (-8) 1 (-16)
      (hostOf memSigned)).host.mem (-16) = 1 ∧
    load32 (CkbVm.wavm_wasi_unstable_fd_write 0 1 (-8) 1 (-16)
      (hostOf memSigned)).host.mem 4294967280 = 0 ∧
    newEvents (hostOf memSigned)
      (Posix.wavm_wasi_unstable_fd_write (fun _ => 1) 0 1 (-8) 1 (-16) (hostOf memSigned))
      = [Event.write 1 64 1] ∧
    load32 (Posix.wavm_wasi_unstable_fd_write (fun _ => 1) 0 1 (-8) 1 (-16)
      (hostOf memSigned)).host.mem (-16) = 1 ∧
    load32 (Posix.wavm_wasi_unstable_fd_write (fun _ => 1) 0 1 (-8) 1 (-16)
      (hostOf memSigned)).host.mem 4294967280 = 0 := by
  decide

/-- C9: in the chain-VM header, the POSIX header and the wrapper,
`wavm_wasi_unstable_proc_exit(code)` ends the run with status `code` for every
`code`: it does not return to the caller, the only host call it makes is the
termination primitive, once and with `code` (no log emission before it), and the
memory is as it was. -/
theorem proc_exit_terminates_with_code (dummy : Nat) (code : Int) (s : Host) :
    ((CkbVm.wavm_wasi_unstable_proc_exit dummy code s).exitCode? = some code ∧
      (CkbVm.wavm_wasi_unstable_proc_exit dummy code s).value? = none ∧
      (CkbVm.wavm_wasi_unstable_proc_exit dummy code s).host.trace
        = s.trace ++ [Event.exit code] ∧
      (CkbVm.wavm_wasi_unstable_proc_exit dummy code s).host.mem = s.mem) ∧
    ((Posix.wavm_wasi_unstable_proc_exit dummy code s).exitCode? = some code ∧
      (Posix.wavm_wasi_unstable_proc_exit dummy code s).value? = none ∧
      (Posix.wavm_wasi_unstable_proc_exit dummy code s).host.trace
        = s.trace ++ [Event.exit code] ∧
      (Posix.wavm_wasi_unstable_proc_exit dummy code s).host.mem = s.mem) ∧
    ((Wrapper.wavm_wasi_unstable_proc_exit dummy code s).exitCode? = some code ∧
      (Wrapper.wavm_wasi_unstable_proc_exit dummy code s).value? = none ∧
      (Wrapper.wavm_wasi_unstable_proc_exit dummy code s).host.trace
        = s.trace ++ [Event.exit code] ∧
      (Wrapper.wavm_wasi_unstable_proc_exit dummy code s).host.mem = s.mem) :=
  ⟨⟨rfl, rfl, rfl, rfl⟩, ⟨rfl, rfl, rfl, rfl⟩, ⟨rfl, rfl, rfl, rfl⟩⟩

/-- C10: `callIndirectFail` always ends the run with status -2 and
`unreachableTrap` with status -1; each makes exactly two host calls, first one
`ckb_debug` with its fixed string ("Call indirect fail!", "This should not be
reached!"), then the termination primitive, and neither returns to its
caller. -/
theorem trap_handlers_terminate (s : Host) :
    ((CkbVm.callIndirectFail s).exitCode? = some (-2) ∧
      (CkbVm.callIndirectFail s).value? = none ∧
      (CkbVm.callIndirectFail s).host.trace
        = s.trace ++ [Event.debug (literal "Call indirect fail!"), Event.exit (-2)] ∧
      (CkbVm.callIndirectFail s).host.mem = s.mem) ∧
    ((CkbVm.unreachableTrap s).exitCode? = some (-1) ∧
      (CkbVm.unreachableTrap s).value? = none ∧
      (CkbVm.unreachableTrap s).host.trace
        = s.trace ++ [Event.debug (literal "This should not be reached!"), Event.exit (-1)] ∧
      (CkbVm.unreachableTrap s).host.mem = s.mem) := by
  refine ⟨⟨rfl, rfl, ?_, rfl⟩, ⟨rfl, rfl, ?_, rfl⟩⟩
  · simp [CkbVm.callIndirectFail, ckb_debug, ckb_exit, Outcome.bind, Outcome.host]
  · simp [CkbVm.unreachableTrap, ckb_debug, ckb_exit, Outcome.bind, Outcome.host]

/-! # The iterations of the chunking loop -/

theorem chunkSteps_done (L fuel : Nat) (w : Int) (h : ¬ u32 w < L) :
    chunkSteps L fuel w = [] := by
  cases fuel <;> simp [chunkSteps, h]

/-- One iteration of the chunking loop, seen on `(written, b)`, when fewer than
2^31 bytes are left. -/
theorem chunkSteps_step (L fuel w : Nat) (hw : w < L) (hL : L < 2147483648) :
    chunkSteps L (fuel + 1) (w : Int)
      = ((w : Int), ((min 64 (L - w) : Nat) : Int))
          :: chunkSteps L fuel ((w + min 64 (L - w) : Nat) : Int) := by
  have hu : u32 (w : Int) = w := u32_of_range _ (by omega) (by omega)
  have hcond : u32 (w : Int) < (L : Int) := by rw [hu]; omega
  have hlb : i32 (u32 ((L : Int) - u32 (w : Int))) = (L : Int) - w := by
    rw [hu, u32_of_range _ (by omega) (by omega), i32_of_range _ (by omega) (by omega)]
  have hb : (if (L : Int) - w > 64 then (64 : Int) else (L : Int) - w)
      = ((min 64 (L - w) : Nat) : Int) := by
    split <;> omega
  have hb0 : (0 : Int) ≤ ((min 64 (L - w) : Nat) : Int) ∧ ((min 64 (L - w) : Nat) : Int) ≤ 64 := by
    omega
  have hnext : i32 ((w : Int) + ((min 64 (L - w) : Nat) : Int))
      = ((w + min 64 (L - w) : Nat) : Int) := by
    rw [i32_of_range _ (by omega) (by omega)]; push_cast; rfl
  rw [chunkSteps]
  simp only [hcond, if_true, hlb, hb, hb0, and_self, hnext]

/-- The chunking loop on a buffer shorter than 2^31 bytes returns with
`written = L`, and its calls of `ckb_debug` are, in order, one per iteration
`(written, b)` listed by `chunkSteps`, each with the C string of the `b` bytes
copied from `&buf[written]`. -/
theorem chunkLoop_steps (buf : Int) (L : Nat) (hL : L < 2147483648) :
    ∀ (fuel w : Nat) (s : Host), w ≤ L → L - w ≤ fuel →
      ∃ tb : Nat → Byte,
        chunkLoop buf L fuel (w : Int) s
          = .returned (L : Int)
              { mem := s.mem
                temp_buffer := tb
                trace := s.trace ++ (chunkSteps L fuel (w : Int)).map
                  (fun st => Event.debug (stepText s.mem buf st)) } := by
  intro fuel
  induction fuel with
  | zero =>
    intro w s hw hf
    have hwL : w = L := by omega
    subst hwL
    have hu : u32 (w : Int) = w := u32_of_range _ (by omega) (by omega)
    refine ⟨s.temp_buffer, ?_⟩
    rw [chunkLoop_done _ _ _ _ _ (by rw [hu]; omega), chunkSteps_done _ _ _ (by rw [hu]; omega)]
    simp
  | succ fuel ih =>
    intro w s hw hf
    by_cases hwL : w = L
    · subst hwL
      have hu : u32 (w : Int) = w := u32_of_range _ (by omega) (by omega)
      refine ⟨s.temp_buffer, ?_⟩
      rw [chunkLoop_done _ _ _ _ _ (by rw [hu]; omega),
        chunkSteps_done _ _ _ (by rw [hu]; omega)]
      simp
    · have hlt : w < L := by omega
      rw [chunkLoop_step buf L fuel w s hlt hL, chunkSteps_step L fuel w hlt hL]
      obtain ⟨tb, hrun⟩ :=
        ih (w + min 64 (L - w))
          { mem := s.mem
            temp_buffer :=
              setTemp (memcpyTemp s.temp_buffer s.mem (buf + w) (min 64 (L - w))) (min 64 (L - w)) 0
            trace := s.trace ++
              [Event.debug ((readBytes s.mem (buf + w) (min 64 (L - w))).takeWhile
                (fun x => decide (x ≠ 0)))] }
          (by omega) (by omega)
      refine ⟨tb, ?_⟩
      rw [hrun]
      have ht : (((min 64 (L - w) : Nat) : Int)).toNat = min 64 (L - w) := Int.toNat_ofNat _
      simp only [stepText, List.map_cons, ht, List.append_assoc, List.singleton_append]

/-- The iterations of the chunking loop on a buffer shorter than 2^31 bytes,
entered with `written = w`: every `b` is between 1 and 64 and stays inside the
buffer, each iteration starts where the one before ended (so `written` strictly
increases), every iteration but the last has `b = 64`, there are
`ceil((L - w) / 64)` of them, the first starts at `w` and the last ends at
`L`. -/
theorem chunkSteps_spec (L : Nat) (hL : L < 2147483648) :
    ∀ (fuel w : Nat), w ≤ L → L - w ≤ fuel →
      (∀ st ∈ chunkSteps L fuel (w : Int),
        (w : Int) ≤ st.1 ∧ 1 ≤ st.2 ∧ st.2 ≤ 64 ∧ st.1 + st.2 ≤ (L : Int)) ∧
      List.Chain' (fun a c : Int × Int => a.1 < c.1 ∧ c.1 = a.1 + a.2)
        (chunkSteps L fuel (w : Int)) ∧
      (∀ st ∈ (chunkSteps L fuel (w : Int)).dropLast, st.2 = 64) ∧
      (chunkSteps L fuel (w : Int)).length = (L - w + 63) / 64 ∧
      (∀ st, (chunkSteps L fuel (w : Int)).head? = some st → st.1 = (w : Int)) ∧
      (∀ st, (chunkSteps L fuel (w : Int)).getLast? = some st → st.1 + st.2 = (L : Int)) := by
  intro fuel
  induction fuel with
  | zero =>
    intro w hw hf
    have hwL : w = L := by omega
    subst hwL
    have hu : u32 (w : Int) = w := u32_of_range _ (by omega) (by omega)
    rw [chunkSteps_done _ _ _ (by rw [hu]; omega)]
    simp
  | succ fuel ih =>
    intro w hw hf
    by_cases hwL : w = L
    · subst hwL
      have hu : u32 (w : Int) = w := u32_of_range _ (by omega) (by omega)
      rw [chunkSteps_done _ _ _ (by rw [hu]; omega)]
      simp
    · have hlt : w < L := by omega
      rw [chunkSteps_step L fuel w hlt hL]
      have hbpos : 1 ≤ min 64 (L - w) := by omega
      have hble : min 64 (L - w) ≤ 64 := by omega
      have hble2 : min 64 (L - w) ≤ L - w := by omega
      have hb64 : min 64 (L - w) < L - w → min 64 (L - w) = 64 := by omega
      generalize hbdef : min 64 (L - w) = b at hbpos hble hble2 hb64
      obtain ⟨hmem, hchain, hdrop, hlen, hhead, hlast⟩ := ih (w + b) (by omega) (by omega)
      have hrest_nonempty : chunkSteps L fuel ((w + b : Nat) : Int) ≠ [] → b = 64 := by
        intro hne
        have hpos : 0 < (chunkSteps L fuel ((w + b : Nat) : Int)).length :=
          List.length_pos.mpr hne
        rw [hlen] at hpos
        apply hb64
        omega
      have hrest_empty : chunkSteps L fuel ((w + b : Nat) : Int) = [] → w + b = L := by
        intro he
        have hz : (chunkSteps L fuel ((w + b : Nat) : Int)).length = 0 := by rw [he]; rfl
        rw [hlen] at hz
        omega
      refine ⟨?_, ?_, ?_, ?_, ?_, ?_⟩
      · intro st hst
        rcases List.mem_cons.mp hst with rfl | hst
        · simp only
          omega
        · have := hmem st hst
          push_cast at this
          omega
      · rw [List.chain'_cons']
        refine ⟨?_, hchain⟩
        intro y hy
        have hy1 := hhead y (by simpa using hy)
        simp only
        push_cast at hy1
        omega
      · cases hrest : chunkSteps L fuel ((w + b : Nat) : Int) with
        | nil => simp
        | cons r rs =>
          have hb : b = 64 := hrest_nonempty (by rw [hrest]; simp)
          rw [List.dropLast_cons₂]
          intro st hst
          rcases List.mem_cons.mp hst with rfl | hst
          · simp only
            omega
          · exact hdrop st (by rw [hrest]; exact hst)
      · rw [List.length_cons, hlen]
        rcases Nat.lt_or_ge 64 (L - w) with h64 | h64
        · have hb : b = 64 := by omega
          omega
        · have hbL : b = L - w := by omega
          have e1 : L - (w + b) = 0 := by omega
          rw [e1]
          omega
      · intro st hst
        simp only [List.head?_cons, Option.some.injEq] at hst
        rw [← hst]
      · intro st hst
        cases hrest : chunkSteps L fuel ((w + b : Nat) : Int) with
        | nil =>
          rw [hrest] at hst
          simp only [List.getLast?_singleton, Option.some.injEq] at hst
          have := hrest_empty hrest
          rw [← hst]
          simp only
          omega
        | cons r rs =>
          rw [hrest, List.getLast?_cons_cons] at hst
          exact hlast st (by rw [hrest]; exact hst)

/-! # The scratch buffer is not observable -/

theorem forgetScratch_eq_iff (s t : Host) :
    s.forgetScratch = t.forgetScratch ↔ s.mem = t.mem ∧ s.trace = t.trace := by
  cases s; cases t
  simp [Host.forgetScratch]

/-- Sequencing respects the observations that leave the scratch buffer out. -/
theorem bind_forgetScratch_congr {α β : Type} (o o' : Outcome α)
    (k k' : α → Host → Outcome β) (ho : o.forgetScratch = o'.forgetScratch)
    (hk : ∀ v s s', s.forgetScratch = s'.forgetScratch →
      (k v s).forgetScratch = (k' v s').forgetScratch) :
    (o.bind k).forgetScratch = (o'.bind k').forgetScratch := by
  cases o <;> cases o' <;> simp only [Outcome.forgetScratch, Outcome.returned.injEq,
    Outcome.exited.injEq, Outcome.overrun.injEq, Outcome.outOfFuel.injEq, reduceCtorEq] at ho
  · obtain ⟨rfl, hs⟩ := ho
    exact hk _ _ _ hs
  · obtain ⟨rfl, hs⟩ := ho
    simp only [Outcome.bind, Outcome.forgetScratch, hs]
  · simp only [Outcome.bind, Outcome.forgetScratch, ho]
  · simp only [Outcome.bind, Outcome.forgetScratch, ho]

/-- The chunking loop started on two states that differ only in the content of
the scratch buffer ends the same way, with the same memory and trace. -/
theorem chunkLoop_forgetScratch (buf : Int) (L : Nat) :
    ∀ (fuel : Nat) (w : Int) (s s' : Host), s.forgetScratch = s'.forgetScratch →
      (chunkLoop buf L fuel w s).forgetScratch = (chunkLoop buf L fuel w s').forgetScratch := by
  intro fuel
  induction fuel with
  | zero =>
    intro w s s' h
    by_cases hc : u32 w < L
    · simp only [chunkLoop, hc, if_true, Outcome.forgetScratch, h]
    · simp only [chunkLoop, hc, if_false, Outcome.forgetScratch, h]
  | succ fuel ih =>
    intro w s s' h
    obtain ⟨hmem, htrace⟩ := (forgetScratch_eq_iff s s').mp h
    by_cases hc : u32 w < L
    · rw [chunkLoop, chunkLoop, if_pos hc, if_pos hc]
      by_cases hb : (0 : Int) ≤ (if i32 (u32 ((L : Int) - u32 w)) > 64 then (64 : Int)
          else i32 (u32 ((L : Int) - u32 w))) ∧
          (if i32 (u32 ((L : Int) - u32 w)) > 64 then (64 : Int)
          else i32 (u32 ((L : Int) - u32 w))) ≤ 64
      · simp only [hb, and_self, if_true, ckb_debug, Outcome.bind]
        apply ih
        rw [forgetScratch_eq_iff]
        refine ⟨hmem, ?_⟩
        have hle : (if i32 (u32 ((L : Int) - u32 w)) > 64 then (64 : Int)
            else i32 (u32 ((L : Int) - u32 w))).toNat ≤ 64 := by omega
        simp only [cstr_chunk _ _ _ _ hle, hmem, htrace]
      · simp only [hb, if_false, Outcome.forgetScratch, h]
    · rw [chunkLoop, chunkLoop, if_neg hc, if_neg hc]
      simp only [Outcome.forgetScratch, h]

/-- The chain-VM descriptor loop started on two states that differ only in the
content of the scratch buffer ends the same way, with the same memory and
trace. -/
theorem CkbVm.descLoop_forgetScratch (address num : Int) :
    ∀ (fuel : Nat) (i wb : Int) (s s' : Host), s.forgetScratch = s'.forgetScratch →
      (CkbVm.descLoop address num fuel i wb s).forgetScratch
        = (CkbVm.descLoop address num fuel i wb s').forgetScratch := by
  intro fuel
  induction fuel with
  | zero =>
    intro i wb s s' h
    by_cases hc : i < num
    · simp only [CkbVm.descLoop, hc, if_true, Outcome.forgetScratch, h]
    · simp only [CkbVm.descLoop, hc, if_false, Outcome.forgetScratch, h]
  | succ fuel ih =>
    intro i wb s s' h
    obtain ⟨hmem, htrace⟩ := (forgetScratch_eq_iff s s').mp h
    by_cases hc : i < num
    · rw [CkbVm.descLoop, CkbVm.descLoop, if_pos hc, if_pos hc]
      simp only [← hmem]
      apply bind_forgetScratch_congr
      · exact chunkLoop_forgetScratch _ _ _ _ s s' h
      · intro v t t' ht
        exact ih _ _ t t' ht
    · rw [CkbVm.descLoop, CkbVm.descLoop, if_neg hc, if_neg hc]
      simp only [Outcome.forgetScratch, h]

/-- The chain-VM `fd_write` started on two states that differ only in the
content of the scratch buffer ends the same way, with the same value, memory
and trace. -/
theorem CkbVm.fd_write_forgetScratch (dummy : Nat) (fd address num written_bytes_address : Int)
    (s s' : Host) (h : s.forgetScratch = s'.forgetScratch) :
    (CkbVm.wavm_wasi_unstable_fd_write dummy fd address num written_bytes_address
        s).forgetScratch
      = (CkbVm.wavm_wasi_unstable_fd_write dummy fd address num written_bytes_address
        s').forgetScratch := by
  unfold CkbVm.wavm_wasi_unstable_fd_write
  apply bind_forgetScratch_congr
  · exact CkbVm.descLoop_forgetScratch _ _ _ _ _ s s' h
  · intro v t t' ht
    obtain ⟨hmem, htrace⟩ := (forgetScratch_eq_iff t t').mp ht
    by_cases hw : written_bytes_address = 0
    · simp only [hw, ne_eq, not_true_eq_false, if_false, Outcome.forgetScratch, ht]
    · simp only [hw, ne_eq, not_false_eq_true, if_true, Outcome.forgetScratch,
        Host.forgetScratch, hmem, htrace]

/-! # The wrapper and the header -/

/-- The descriptor loop of `ckb_vm_wasi_wrapper.c` is the one of
`abi/ckb_vm_wasi_abi.h`. -/
theorem Wrapper.descLoop_eq_header (address num : Int) :
    ∀ (fuel : Nat) (i wb : Int) (s : Host),
      Wrapper.descLoop address num fuel i wb s = CkbVm.descLoop address num fuel i wb s := by
  intro fuel
  induction fuel with
  | zero => intro i wb s; rfl
  | succ fuel ih =>
    intro i wb s
    rw [Wrapper.descLoop, CkbVm.descLoop]
    by_cases hc : i < num
    · simp only [hc, if_true]
      congr 1
      funext v t
      exact ih _ _ t
    · simp only [hc, if_false]

/-! # The chunk sequences of the descriptors -/

/-- The chunking loop never stores into the memory, however it ends. -/
theorem chunkLoop_mem (buf : Int) (L : Nat) :
    ∀ (fuel : Nat) (w : Int) (s : Host), (chunkLoop buf L fuel w s).host.mem = s.mem := by
  intro fuel
  induction fuel with
  | zero =>
    intro w s
    by_cases hc : u32 w < L
    · simp only [chunkLoop, hc, if_true, Outcome.host]
    · simp only [chunkLoop, hc, if_false, Outcome.host]
  | succ fuel ih =>
    intro w s
    by_cases hc : u32 w < L
    · rw [chunkLoop, if_pos hc]
      by_cases hb : (0 : Int) ≤ (if i32 (u32 ((L : Int) - u32 w)) > 64 then (64 : Int)
          else i32 (u32 ((L : Int) - u32 w))) ∧
          (if i32 (u32 ((L : Int) - u32 w)) > 64 then (64 : Int)
          else i32 (u32 ((L : Int) - u32 w))) ≤ 64
      · simp only [hb, and_self, if_true, ckb_debug, Outcome.bind]
        rw [ih]
      · simp only [hb, if_false, Outcome.host]
    · rw [chunkLoop, if_neg hc]
      simp only [Outcome.host]

/-- The chain-VM descriptor loop never stores into the memory, however it
ends. -/
theorem CkbVm.descLoop_mem (address num : Int) :
    ∀ (fuel : Nat) (i wb : Int) (s : Host),
      (CkbVm.descLoop address num fuel i wb s).host.mem = s.mem := by
  intro fuel
  induction fuel with
  | zero =>
    intro i wb s
    by_cases hc : i < num
    · simp only [CkbVm.descLoop, hc, if_true, Outcome.host]
    · simp only [CkbVm.descLoop, hc, if_false, Outcome.host]
  | succ fuel ih =>
    intro i wb s
    by_cases hc : i < num
    · rw [CkbVm.descLoop, if_pos hc]
      have hm := chunkLoop_mem (bufferAddress s.mem address i) (bufferLength s.mem address i)
        (bufferLength s.mem address i) 0 s
      cases hrun : writeChunks (bufferAddress s.mem address i)
          (bufferLength s.mem address i) s with
      | returned v s1 =>
        have h1 : s1.mem = s.mem := by
          unfold writeChunks at hrun
          rw [hrun] at hm
          exact hm
        simp only [hrun, Outcome.bind]
        rw [ih, h1]
      | exited c s1 =>
        unfold writeChunks at hrun
        rw [hrun] at hm
        simp only [writeChunks, hrun, Outcome.bind]
        exact hm
      | overrun s1 =>
        unfold writeChunks at hrun
        rw [hrun] at hm
        simp only [writeChunks, hrun, Outcome.bind]
        exact hm
      | outOfFuel s1 =>
        unfold writeChunks at hrun
        rw [hrun] at hm
        simp only [writeChunks, hrun, Outcome.bind]
        exact hm
    · rw [CkbVm.descLoop, if_neg hc]
      simp only [Outcome.host]

/-- When every length field is below 2^31 the chain-VM `fd_write` changes no
byte outside the four bytes at `written_bytes_address`. -/
theorem CkbVm.fd_write_window_of_small (dummy : Nat)
    (fd address num written_bytes_address : Int) (s : Host)
    (hsmall : ∀ k : Nat, k < num.toNat → bufferLength s.mem address (k : Int) < 2147483648)
    (x : Int) (hx : x < written_bytes_address ∨ written_bytes_address + 3 < x) :
    (CkbVm.wavm_wasi_unstable_fd_write dummy fd address num written_bytes_address
      s).host.mem x = s.mem x := by
  obtain ⟨tb, chunks, hrun⟩ :=
    CkbVm.fd_write_spec_of_small dummy fd address num written_bytes_address s hsmall
  rw [hrun]
  by_cases hw : written_bytes_address = 0
  · simp [Outcome.host, hw]
  · simp only [Outcome.host, hw, ne_eq, not_false_eq_true, if_true]
    exact store32_other _ _ _ _ hx

theorem forgetScratch_observations {α : Type} (o o' : Outcome α)
    (h : o.forgetScratch = o'.forgetScratch) :
    o.host.mem = o'.host.mem ∧ o.host.trace = o'.host.trace ∧ o.value? = o'.value? ∧
    o.isOverrun = o'.isOverrun ∧ o.exitCode? = o'.exitCode? := by
  cases o <;> cases o' <;> simp only [Outcome.forgetScratch, Outcome.returned.injEq,
    Outcome.exited.injEq, Outcome.overrun.injEq, Outcome.outOfFuel.injEq, reduceCtorEq] at h
  · obtain ⟨rfl, hs⟩ := h
    obtain ⟨hm, ht⟩ := (forgetScratch_eq_iff _ _).mp hs
    simp [Outcome.host, Outcome.value?, Outcome.isOverrun, Outcome.exitCode?, hm, ht]
  · obtain ⟨rfl, hs⟩ := h
    obtain ⟨hm, ht⟩ := (forgetScratch_eq_iff _ _).mp hs
    simp [Outcome.host, Outcome.value?, Outcome.isOverrun, Outcome.exitCode?, hm, ht]
  · obtain ⟨hm, ht⟩ := (forgetScratch_eq_iff _ _).mp h
    simp [Outcome.host, Outcome.value?, Outcome.isOverrun, Outcome.exitCode?, hm, ht]
  · obtain ⟨hm, ht⟩ := (forgetScratch_eq_iff _ _).mp h
    simp [Outcome.host, Outcome.value?, Outcome.isOverrun, Outcome.exitCode?, hm, ht]

/-! # The claims, continued -/

/-- C11: for every `dummy`, every page count `grow_by` (zero and negative
values included) and every host state, `wavm_intrinsic_memory_grow` ends the
run with status -10 after exactly one `ckb_debug` call with the string
"Implement memory.grow!"; it makes no other host call, leaves the memory as it
was, and returns nothing to its caller, so the result with `value = -1` never
reaches the guest. -/
theorem memory_grow_terminates (dummy : Nat) (grow_by : Int) (s : Host) :
    (CkbVm.wavm_intrinsic_memory_grow dummy grow_by s).exitCode? = some (-10) ∧
    (CkbVm.wavm_intrinsic_memory_grow dummy grow_by s).value? = none ∧
    (CkbVm.wavm_intrinsic_memory_grow dummy grow_by s).host.trace
      = s.trace ++ [Event.debug (literal "Implement memory.grow!"), Event.exit (-10)] ∧
    (CkbVm.wavm_intrinsic_memory_grow dummy grow_by s).host.mem = s.mem := by
  refine ⟨rfl, rfl, ?_, rfl⟩
  simp [CkbVm.wavm_intrinsic_memory_grow, ckb_debug, ckb_exit, Outcome.bind, Outcome.host]

/-- C12: two calls of the chain-VM `fd_write` that differ only in `fd` have the
same outcome: the same strings handed to `ckb_debug`, the same resulting memory
and the same returned value. -/
theorem CkbVm.fd_write_ignores_fd (dummy : Nat) (fd fd' address num written_bytes_address : Int)
    (s : Host) :
    CkbVm.wavm_wasi_unstable_fd_write dummy fd address num written_bytes_address s
      = CkbVm.wavm_wasi_unstable_fd_write dummy fd' address num written_bytes_address s ∧
    emitted s (CkbVm.wavm_wasi_unstable_fd_write dummy fd address num written_bytes_address s)
      = emitted s
          (CkbVm.wavm_wasi_unstable_fd_write dummy fd' address num written_bytes_address s) ∧
    (CkbVm.wavm_wasi_unstable_fd_write dummy fd address num written_bytes_address s).host.mem
      = (CkbVm.wavm_wasi_unstable_fd_write dummy fd' address num written_bytes_address
          s).host.mem ∧
    (CkbVm.wavm_wasi_unstable_fd_write dummy fd address num written_bytes_address s).value?
      = (CkbVm.wavm_wasi_unstable_fd_write dummy fd' address num written_bytes_address
          s).value? :=
  ⟨rfl, rfl, rfl, rfl⟩

/-- C13, evaluated at an array of two descriptors whose first length field is
0x80000000 and whose second names one byte 0x41: the chunking loop overruns
the scratch buffer on descriptor 0, descriptor 1 is never decoded and nothing is
logged, while the chunk sequence of descriptor 1 is the string "A"; the
emissions are not the concatenation of the chunk sequences of descriptors 0
and 1. -/
theorem CkbVm.fd_write_chunks_huge_first :
    bufferLength memTwo 8 0 = 2147483648 ∧ bufferLength memTwo 8 1 = 1 ∧
    descriptorChunks memTwo 8 1 = [[65]] ∧
    (CkbVm.wavm_wasi_unstable_fd_write 0 1 8 2 0 (hostOf memTwo)).isOverrun = true ∧
    emitted (hostOf memTwo) (CkbVm.wavm_wasi_unstable_fd_write 0 1 8 2 0 (hostOf memTwo)) = [] ∧
    emitted (hostOf memTwo) (CkbVm.wavm_wasi_unstable_fd_write 0 1 8 2 0 (hostOf memTwo))
      ≠ (List.range (2 : Int).toNat).flatMap
          (fun k : Nat => descriptorChunks memTwo 8 (k : Int)) := by
  decide

/-- C14: for every buffer length L below 2^31 (and every buffer address and
host state) the chunking loop returns with `written = L`; its calls of
`ckb_debug` are one per iteration `(written, b)`, each with the C string of the
`b` bytes copied from `&buf[written]`; every iteration has `1 ≤ b ≤ 64` and
stays inside the buffer, `written` strictly increases from one iteration to the
next (by `b`), every iteration but the last has `b = 64`, the last one ends at
`L`, and a buffer of length 0 produces no call. -/
theorem chunk_loop_bounds (buf : Int) (L : Nat) (s : Host) (hL : L < 2147483648) :
    (writeChunks buf L s).value? = some (L : Int) ∧
    (writeChunks buf L s).isOverrun = false ∧
    (writeChunks buf L s).host.trace
      = s.trace ++ (chunkSteps L L 0).map (fun st => Event.debug (stepText s.mem buf st)) ∧
    (∀ st ∈ chunkSteps L L 0, 1 ≤ st.2 ∧ st.2 ≤ 64 ∧ 0 ≤ st.1 ∧ st.1 + st.2 ≤ (L : Int)) ∧
    List.Chain' (fun a c : Int × Int => a.1 < c.1 ∧ c.1 = a.1 + a.2) (chunkSteps L L 0) ∧
    (∀ st ∈ (chunkSteps L L 0).dropLast, st.2 = 64) ∧
    (∀ st, (chunkSteps L L 0).getLast? = some st → st.1 + st.2 = (L : Int)) ∧
    (L = 0 → newEvents s (writeChunks buf L s) = []) := by
  obtain ⟨tb, hrun⟩ := chunkLoop_steps buf L hL L 0 s (by omega) (by omega)
  obtain ⟨hmem, hchain, hdrop, hlen, -, hlast⟩ := chunkSteps_spec L hL L 0 (by omega) (by omega)
  have e0 : ((0 : Nat) : Int) = 0 := rfl
  rw [e0] at hrun hmem hchain hdrop hlen hlast
  unfold writeChunks
  rw [hrun]
  refine ⟨rfl, rfl, rfl, ?_, hchain, hdrop, hlast, ?_⟩
  · intro st hst
    have := hmem st hst
    omega
  · intro hz
    have hnil : chunkSteps L L 0 = [] := by
      apply List.eq_nil_of_length_eq_zero
      rw [hlen, hz]
    simp [newEvents, Outcome.host, hnil]

/-- Witness of C14: a buffer of 130 bytes, logged in iterations of 64, 64 and 2
bytes. -/
theorem chunk_loop_bounds_witness :
    (130 < 2147483648) ∧
    ((writeChunks 32 130 (hostOf memLong)).value? = some ((130 : Nat) : Int) ∧
    (writeChunks 32 130 (hostOf memLong)).isOverrun = false ∧
    (writeChunks 32 130 (hostOf memLong)).host.trace
      = (hostOf memLong).trace ++ (chunkSteps 130 130 0).map
          (fun st => Event.debug (stepText (hostOf memLong).mem 32 st)) ∧
    (∀ st ∈ chunkSteps 130 130 0,
      1 ≤ st.2 ∧ st.2 ≤ 64 ∧ 0 ≤ st.1 ∧ st.1 + st.2 ≤ ((130 : Nat) : Int)) ∧
    List.Chain' (fun a c : Int × Int => a.1 < c.1 ∧ c.1 = a.1 + a.2) (chunkSteps 130 130 0) ∧
    (∀ st ∈ (chunkSteps 130 130 0).dropLast, st.2 = 64) ∧
    (∀ st, (chunkSteps 130 130 0).getLast? = some st → st.1 + st.2 = ((130 : Nat) : Int)) ∧
    (130 = 0 → newEvents (hostOf memLong) (writeChunks 32 130 (hostOf memLong)) = [])) :=
  ⟨by decide, chunk_loop_bounds 32 130 (hostOf memLong) (by decide)⟩

/-- C15: two calls of the chain-VM `fd_write` with the same memory, `fd`,
`address`, `num` and `written_bytes_address` (and the same trace so far) that
start from two different contents of the scratch buffer end the same way: the
same calls of `ckb_debug` with the same strings, the same final memory and the
same returned value. -/
theorem CkbVm.fd_write_scratch_independent (dummy : Nat)
    (fd address num written_bytes_address : Int) (m : Memory) (trace : List Event)
    (tb tb' : Nat → Byte) :
    (CkbVm.wavm_wasi_unstable_fd_write dummy fd address num written_bytes_address
        { mem := m, temp_buffer := tb, trace := trace }).forgetScratch
      = (CkbVm.wavm_wasi_unstable_fd_write dummy fd address num written_bytes_address
        { mem := m, temp_buffer := tb', trace := trace }).forgetScratch ∧
    (CkbVm.wavm_wasi_unstable_fd_write dummy fd address num written_bytes_address
        { mem := m, temp_buffer := tb, trace := trace }).host.trace
      = (CkbVm.wavm_wasi_unstable_fd_write dummy fd address num written_bytes_address
        { mem := m, temp_buffer := tb', trace := trace }).host.trace ∧
    (CkbVm.wavm_wasi_unstable_fd_write dummy fd address num written_bytes_address
        { mem := m, temp_buffer := tb, trace := trace }).host.mem
      = (CkbVm.wavm_wasi_unstable_fd_write dummy fd address num written_bytes_address
        { mem := m, temp_buffer := tb', trace := trace }).host.mem ∧
    (CkbVm.wavm_wasi_unstable_fd_write dummy fd address num written_bytes_address
        { mem := m, temp_buffer := tb, trace := trace }).value?
      = (CkbVm.wavm_wasi_unstable_fd_write dummy fd address num written_bytes_address
        { mem := m, temp_buffer := tb', trace := trace }).value? := by
  have h := CkbVm.fd_write_forgetScratch dummy fd address num written_bytes_address
    { mem := m, temp_buffer := tb, trace := trace }
    { mem := m, temp_buffer := tb', trace := trace } rfl
  obtain ⟨hm, ht, hv, -, -⟩ := forgetScratch_observations _ _ h
  exact ⟨h, ht, hm, hv⟩

/-! # Where the descriptors are read, what the write-back touches -/

theorem bufferAddress_eq (m : Memory) (address i : Int) :
    bufferAddress m address i = load32 m (address + 8 * i) := by
  unfold bufferAddress descIndex
  rw [Int.mul_comm]

theorem bufferLength_eq (m : Memory) (address i : Int) :
    bufferLength m address i = load32 m (address + 8 * i + 4) := by
  unfold bufferLength descLenIndex
  rw [Int.mul_comm]

/-- The chain-VM `fd_write` as a function of its descriptor loop: every host
call is made by the loop, and the memory at the end is the memory on entry
except, after the loop returned, for the word stored at a non-zero
`written_bytes_address`. -/
theorem CkbVm.ckbvm_fd_write_host (dummy : Nat) (fd address num written_bytes_address : Int)
    (s : Host) :
    (CkbVm.wavm_wasi_unstable_fd_write dummy fd address num written_bytes_address s).host.trace
      = (CkbVm.descLoop address num num.toNat 0 0 s).host.trace ∧
    (CkbVm.wavm_wasi_unstable_fd_write dummy fd address num written_bytes_address s).value?
      = ((CkbVm.descLoop address num num.toNat 0 0 s).value?).map
          (fun _ => ({ dummy := dummy, value := 0 } : wavm_ret_int32_t)) ∧
    (CkbVm.wavm_wasi_unstable_fd_write dummy fd address num written_bytes_address s).isOverrun
      = (CkbVm.descLoop address num num.toNat 0 0 s).isOverrun ∧
    (written_bytes_address = 0 →
      (CkbVm.wavm_wasi_unstable_fd_write dummy fd address num written_bytes_address
        s).host.mem = s.mem) ∧
    (∀ x : Int, x < written_bytes_address ∨ written_bytes_address + 3 < x →
      (CkbVm.wavm_wasi_unstable_fd_write dummy fd address num written_bytes_address
        s).host.mem x = s.mem x) := by
  unfold CkbVm.wavm_wasi_unstable_fd_write
  have hm := CkbVm.descLoop_mem address num num.toNat 0 0 s
  cases hrun : CkbVm.descLoop address num num.toNat 0 0 s with
  | returned wb s1 =>
    rw [hrun] at hm
    simp only [Outcome.host] at hm
    by_cases hw : written_bytes_address = 0
    · simp [Outcome.bind, Outcome.host, Outcome.value?, Outcome.isOverrun, hw, hm]
    · simp only [Outcome.bind, Outcome.host, Outcome.value?, Outcome.isOverrun, hw, ne_eq,
        not_false_eq_true, if_true, Option.map_some', false_implies, true_and]
      intro x hx
      rw [store32_other _ _ _ _ hx, hm]
  | exited c s1 =>
    rw [hrun] at hm
    simp only [Outcome.host] at hm
    simp [Outcome.bind, Outcome.host, Outcome.value?, Outcome.isOverrun, hm]
  | overrun s1 =>
    rw [hrun] at hm
    simp only [Outcome.host] at hm
    simp [Outcome.bind, Outcome.host, Outcome.value?, Outcome.isOverrun, hm]
  | outOfFuel s1 =>
    rw [hrun] at hm
    simp only [Outcome.host] at hm
    simp [Outcome.bind, Outcome.host, Outcome.value?, Outcome.isOverrun, hm]

/-- The wrapper `fd_write` as a function of the descriptor loop: every host call
is made by the loop, the status is 0 when the loop returns, and the memory at
the end is the memory on entry. -/
theorem Wrapper.wrapper_fd_write_host (dummy : Nat) (fd address num writtenBytesAddress : Int)
    (s : Host) :
    (Wrapper.wavm_wasi_unstable_fd_write dummy fd address num writtenBytesAddress s).host.trace
      = (CkbVm.descLoop address num num.toNat 0 0 s).host.trace ∧
    (Wrapper.wavm_wasi_unstable_fd_write dummy fd address num writtenBytesAddress s).value?
      = ((CkbVm.descLoop address num num.toNat 0 0 s).value?).map (fun _ => (0 : Int)) ∧
    (Wrapper.wavm_wasi_unstable_fd_write dummy fd address num writtenBytesAddress s).isOverrun
      = (CkbVm.descLoop address num num.toNat 0 0 s).isOverrun ∧
    (Wrapper.wavm_wasi_unstable_fd_write dummy fd address num writtenBytesAddress s).host.mem
      = s.mem := by
  unfold Wrapper.wavm_wasi_unstable_fd_write
  rw [Wrapper.descLoop_eq_header]
  have hm := CkbVm.descLoop_mem address num num.toNat 0 0 s
  cases hrun : CkbVm.descLoop address num num.toNat 0 0 s with
  | returned wb s1 =>
    rw [hrun] at hm
    simp only [Outcome.host] at hm
    simp [Outcome.bind, Outcome.host, Outcome.value?, Outcome.isOverrun, hm]
  | exited c s1 =>
    rw [hrun] at hm
    simp only [Outcome.host] at hm
    simp [Outcome.bind, Outcome.host, Outcome.value?, Outcome.isOverrun, hm]
  | overrun s1 =>
    rw [hrun] at hm
    simp only [Outcome.host] at hm
    simp [Outcome.bind, Outcome.host, Outcome.value?, Outcome.isOverrun, hm]
  | outOfFuel s1 =>
    rw [hrun] at hm
    simp only [Outcome.host] at hm
    simp [Outcome.bind, Outcome.host, Outcome.value?, Outcome.isOverrun, hm]

/-- The `write` calls of the POSIX `fd_write`, with the places the arguments are
read from written out: call `k` gets the caller's `fd`, the word at displacement
`address + 8 * k` as buffer displacement and the word at `address + 8 * k + 4`
as count, `address` being the signed `int32_t` argument. -/
theorem Posix.fd_write_events (rets : Nat → Int) (dummy : Nat)
    (fd address num written_bytes_address : Int) (s : Host) :
    newEvents s (Posix.wavm_wasi_unstable_fd_write rets dummy fd address num
        written_bytes_address s)
      = (List.range num.toNat).map (fun k : Nat =>
          Event.write fd ((load32 s.mem (address + 8 * (k : Int)) : Nat) : Int)
            (load32 s.mem (address + 8 * (k : Int) + 4))) := by
  have e : (fun k : Nat => Event.write fd (bufferAddress s.mem address (0 + (k : Int)))
        (bufferLength s.mem address (0 + (k : Int))))
      = (fun k : Nat => Event.write fd ((load32 s.mem (address + 8 * (k : Int)) : Nat) : Int)
        (load32 s.mem (address + 8 * (k : Int) + 4))) := by
    funext k
    rw [zero_add, bufferAddress_eq, bufferLength_eq]
  rw [Posix.fd_write_spec]
  simp only [newEvents, Outcome.host, drop_length_append, e]

/-! # The claims on the frame, the write calls and the wrapper -/

/-- C6: when `written_bytes_address` is 0, for every `fd`, `address`, `num` and
memory (and every sequence of values returned by `write`), the memory at the
end of the call, however the call ends, is byte for byte the memory on entry,
in the chain-VM `fd_write` and in the POSIX one; in particular the four bytes
at offsets 0..3 are unchanged. -/
theorem fd_write_zero_address_no_store (rets : Nat → Int) (dummy : Nat)
    (fd address num : Int) (s : Host) :
    (CkbVm.wavm_wasi_unstable_fd_write dummy fd address num 0 s).host.mem = s.mem ∧
    (Posix.wavm_wasi_unstable_fd_write rets dummy fd address num 0 s).host.mem = s.mem ∧
    readBytes (CkbVm.wavm_wasi_unstable_fd_write dummy fd address num 0 s).host.mem 0 4
      = readBytes s.mem 0 4 ∧
    readBytes (Posix.wavm_wasi_unstable_fd_write rets dummy fd address num 0 s).host.mem 0 4
      = readBytes s.mem 0 4 := by
  have hc : (CkbVm.wavm_wasi_unstable_fd_write dummy fd address num 0 s).host.mem = s.mem :=
    (CkbVm.ckbvm_fd_write_host dummy fd address num 0 s).2.2.2.1 rfl
  have hp : (Posix.wavm_wasi_unstable_fd_write rets dummy fd address num 0 s).host.mem
      = s.mem := by
    rw [Posix.fd_write_spec]
    simp [Outcome.host]
  exact ⟨hc, hp, by rw [hc], by rw [hp]⟩

/-- C7, evaluated: on every input the POSIX `fd_write` makes exactly `num` calls
of `write` and no other host call, in index order, call `k` with the caller's
`fd`, the word at displacement `address + 8 * k` as buffer and the word at
`address + 8 * k + 4` as count, and a sink that accepts every byte receives
those buffers in order. But `address` is used as a signed index: for the
descriptor array at guest offset 0xFFFFFFF8, which describes the byte 0x42 at
65, the argument is -8, the descriptor is read at displacement -8 and the byte
sent is the 0x41 at 64. -/
theorem Posix.fd_write_calls_signed_address :
    (∀ (rets : Nat → Int) (dummy : Nat) (fd address num written_bytes_address : Int)
      (s : Host),
      (Posix.wavm_wasi_unstable_fd_write rets dummy fd address num
          written_bytes_address s).host.trace
        = s.trace ++ newEvents s (Posix.wavm_wasi_unstable_fd_write rets dummy fd address num
            written_bytes_address s) ∧
      newEvents s (Posix.wavm_wasi_unstable_fd_write rets dummy fd address num
          written_bytes_address s)
        = (List.range num.toNat).map (fun k : Nat =>
            Event.write fd ((load32 s.mem (address + 8 * (k : Int)) : Nat) : Int)
              (load32 s.mem (address + 8 * (k : Int) + 4))) ∧
      (newEvents s (Posix.wavm_wasi_unstable_fd_write rets dummy fd address num
          written_bytes_address s)).length = num.toNat ∧
      acceptedBytes s.mem (newEvents s (Posix.wavm_wasi_unstable_fd_write rets dummy fd
          address num written_bytes_address s))
        = (List.range num.toNat).flatMap (fun k : Nat =>
            readBytes s.mem ((load32 s.mem (address + 8 * (k : Int)) : Nat) : Int)
              (load32 s.mem (address + 8 * (k : Int) + 4)))) ∧
    i32 4294967288 = -8 ∧
    load32 memSigned 4294967288 = 65 ∧ load32 memSigned 4294967292 = 1 ∧
    readBytes memSigned 65 1 = [66] ∧
    newEvents (hostOf memSigned)
      (Posix.wavm_wasi_unstable_fd_write (fun _ => 1) 0 1 (-8) 1 0 (hostOf memSigned))
      = [Event.write 1 64 1] ∧
    acceptedBytes memSigned (newEvents (hostOf memSigned)
      (Posix.wavm_wasi_unstable_fd_write (fun _ => 1) 0 1 (-8) 1 0 (hostOf memSigned)))
      = [65] := by
  refine ⟨fun rets dummy fd address num wba s => ?_, by decide, by decide, by decide,
    by decide, by decide, by decide⟩
  have hev := Posix.fd_write_events rets dummy fd address num wba s
  refine ⟨?_, hev, ?_, ?_⟩
  · rw [Posix.fd_write_spec]
    simp only [newEvents, Outcome.host, drop_length_append]
  · rw [hev, List.length_map, List.length_range]
  · rw [hev]
    exact acceptedBytes_writes s.mem fd
      (fun k : Nat => ((load32 s.mem (address + 8 * (k : Int)) : Nat) : Int))
      (fun k : Nat => load32 s.mem (address + 8 * (k : Int) + 4)) (List.range num.toNat)

/-- C17: on every input the `fd_write` of `ckb_vm_wasi_wrapper.c` and the one of
`abi/ckb_vm_wasi_abi.h` make the same host calls, so they hand the same strings
to `ckb_debug`; they return or overrun together and return the same status,
which is 0 (and is returned whenever every length field is below 2^31). The
wrapper ends with the memory as it was on entry whatever its fifth argument,
and the header's memory differs from it at most in the four bytes at
`written_bytes_address`. -/
theorem wrapper_header_agreement (dummy : Nat) (fd address num written_bytes_address : Int)
    (s : Host) :
    (Wrapper.wavm_wasi_unstable_fd_write dummy fd address num written_bytes_address
        s).host.trace
      = (CkbVm.wavm_wasi_unstable_fd_write dummy fd address num written_bytes_address
        s).host.trace ∧
    emitted s (Wrapper.wavm_wasi_unstable_fd_write dummy fd address num
        written_bytes_address s)
      = emitted s (CkbVm.wavm_wasi_unstable_fd_write dummy fd address num
        written_bytes_address s) ∧
    (Wrapper.wavm_wasi_unstable_fd_write dummy fd address num written_bytes_address
        s).value?
      = ((CkbVm.wavm_wasi_unstable_fd_write dummy fd address num written_bytes_address
        s).value?).map (fun r => r.value) ∧
    (Wrapper.wavm_wasi_unstable_fd_write dummy fd address num written_bytes_address
        s).isOverrun
      = (CkbVm.wavm_wasi_unstable_fd_write dummy fd address num written_bytes_address
        s).isOverrun ∧
    (∀ v, (Wrapper.wavm_wasi_unstable_fd_write dummy fd address num written_bytes_address
        s).value? = some v → v = 0) ∧
    (Wrapper.wavm_wasi_unstable_fd_write dummy fd address num written_bytes_address
        s).host.mem = s.mem ∧
    (∀ x : Int, x < written_bytes_address ∨ written_bytes_address + 3 < x →
      (CkbVm.wavm_wasi_unstable_fd_write dummy fd address num written_bytes_address
        s).host.mem x
        = (Wrapper.wavm_wasi_unstable_fd_write dummy fd address num written_bytes_address
          s).host.mem x) ∧
    ((∀ k : Nat, k < num.toNat → load32 s.mem (address + 8 * (k : Int) + 4) < 2147483648) →
      (Wrapper.wavm_wasi_unstable_fd_write dummy fd address num written_bytes_address
        s).value? = some 0 ∧
      (CkbVm.wavm_wasi_unstable_fd_write dummy fd address num written_bytes_address
        s).value? = some { dummy := dummy, value := 0 }) := by
  obtain ⟨hct, hcv, hco, -, hcm⟩ := CkbVm.ckbvm_fd_write_host dummy fd address num
    written_bytes_address s
  obtain ⟨hwt, hwv, hwo, hwm⟩ := Wrapper.wrapper_fd_write_host dummy fd address num
    written_bytes_address s
  have hval : (Wrapper.wavm_wasi_unstable_fd_write dummy fd address num written_bytes_address
        s).value?
      = ((CkbVm.wavm_wasi_unstable_fd_write dummy fd address num written_bytes_address
        s).value?).map (fun r => r.value) := by
    rw [hwv, hcv]
    cases (CkbVm.descLoop address num num.toNat 0 0 s).value? <;> rfl
  refine ⟨by rw [hwt, hct], by simp only [emitted, newEvents, hwt, hct], hval,
    by rw [hwo, hco], ?_, hwm, fun x hx => by rw [hcm x hx, hwm], ?_⟩
  · intro v hv
    rw [hwv] at hv
    cases hd : (CkbVm.descLoop address num num.toNat 0 0 s).value? with
    | none => rw [hd] at hv; simp at hv
    | some w => rw [hd] at hv; simpa using hv.symm
  · intro hsmall
    have hh := (CkbVm.fd_write_total_of_small dummy fd address num 1 s
      (fun k hk => by rw [bufferLength_eq]; exact hsmall k hk) (by decide)).1
    obtain ⟨-, hcv1, -, -, -⟩ := CkbVm.ckbvm_fd_write_host dummy fd address num 1 s
    rw [hcv1] at hh
    cases hd : (CkbVm.descLoop address num num.toNat 0 0 s).value? with
    | none => rw [hd] at hh; simp at hh
    | some w =>
      rw [hwv, hcv, hd]
      exact ⟨rfl, rfl⟩

end WavmAbi
